import Mathlib

/-!
# Verification of the DCN oblivious-routing symmetry-reduction pipeline

Shallow embedding of the orbit-enumeration, link-constraint classification,
optimization-model construction, verification and solution-grouping code of
the repository (`topology_automorphism.py`, `optimization.py`,
`verification.py`, `solution_grouping.py`), together with proofs and
refutations of the specification claims.

Conventions:
* nodes are `Nat` in `0..N-1`, automorphism generators are node permutations
  represented as `List Nat` (position `n` holds the image of node `n`),
  exactly as the `pynauty` generator tuples consumed by the source;
* Python sets iterated in unspecified order are modelled as lists in a fixed
  (insertion) order; `set.pop()` is modelled as taking the head;
* Python `dict` objects are modelled as insertion-ordered association lists;
* operations that can raise (`KeyError`, `NameError`) return `Option`/flagged
  results.
-/

namespace DCN

/-- `applyGenerator` from `topology_automorphism.py`: apply an automorphic
generator `autmap` to a tuple of nodes, coordinate-wise.  Out-of-range
indices (which would raise in Python and never occur on well-formed input)
are mapped to themselves. -/
def applyNode (autmap : List Nat) (n : Nat) : Nat := autmap.getD n n

/-- `applyGenerator` on a list of nodes (used for the forward permutation
maps, which the source stores as node tuples). -/
def applyGenerator (nodes : List Nat) (autmap : List Nat) : List Nat :=
  nodes.map (applyNode autmap)

/-- `applyGenerator` specialised to a commodity / directed-link pair. -/
def applyPair (sd : Nat × Nat) (autmap : List Nat) : Nat × Nat :=
  (applyNode autmap sd.1, applyNode autmap sd.2)

/-- `applyGenerator` specialised to an auxiliary triple `(host, i, j)`. -/
def applyTriple (a : Nat × Nat × Nat) (autmap : List Nat) : Nat × Nat × Nat :=
  (applyNode autmap a.1, applyNode autmap a.2.1, applyNode autmap a.2.2)

/-- A generator list is a permutation of the node range `0..N-1`. -/
def IsPermOn (N : Nat) (m : List Nat) : Prop :=
  m.length = N ∧ m.Nodup ∧ ∀ x ∈ m, x < N

instance (N : Nat) (m : List Nat) : Decidable (IsPermOn N m) := by
  unfold IsPermOn; infer_instance

theorem applyNode_lt {N : Nat} {m : List Nat} (h : IsPermOn N m) {n : Nat}
    (hn : n < N) : applyNode m n < N := by
  obtain ⟨hl, _, hb⟩ := h
  have hn' : n < m.length := by omega
  simp only [applyNode, List.getD_eq_getElem?_getD, List.getElem?_eq_getElem hn']
  exact hb _ (List.getElem_mem hn')

theorem applyNode_of_ge {m : List Nat} {n : Nat} (h : m.length ≤ n) :
    applyNode m n = n := by
  simp [applyNode, List.getD_eq_getElem?_getD, List.getElem?_eq_none_iff.mpr h]

theorem applyNode_injective {N : Nat} {m : List Nat} (h : IsPermOn N m) :
    Function.Injective (applyNode m) := by
  obtain ⟨hl, hnd, hb⟩ := h
  intro a b hab
  by_cases ha : a < N <;> by_cases hb' : b < N
  · have ha' : a < m.length := by omega
    have hb'' : b < m.length := by omega
    simp only [applyNode, List.getD_eq_getElem?_getD, List.getElem?_eq_getElem ha',
      List.getElem?_eq_getElem hb'', Option.getD_some] at hab
    have := (List.Nodup.get_inj_iff hnd (i := ⟨a, ha'⟩) (j := ⟨b, hb''⟩))
    simp only [List.get_eq_getElem] at this
    exact Fin.mk.injEq _ _ _ _ ▸ (this.mp hab)
  · exfalso
    have hbm : applyNode m b = b := applyNode_of_ge (by omega)
    have ham : applyNode m a < N := applyNode_lt ⟨hl, hnd, hb⟩ ha
    omega
  · exfalso
    have ham : applyNode m a = a := applyNode_of_ge (by omega)
    have hbm : applyNode m b < N := applyNode_lt ⟨hl, hnd, hb⟩ hb'
    omega
  · have ha' : applyNode m a = a := applyNode_of_ge (by omega)
    have hb'' : applyNode m b = b := applyNode_of_ge (by omega)
    omega

theorem applyPair_injective {N : Nat} {m : List Nat} (h : IsPermOn N m) :
    Function.Injective (fun sd => applyPair sd m) := by
  intro a b hab
  simp only [applyPair, Prod.mk.injEq] at hab
  have h1 := applyNode_injective h hab.1
  have h2 := applyNode_injective h hab.2
  exact Prod.ext h1 h2

theorem applyTriple_injective {N : Nat} {m : List Nat} (h : IsPermOn N m) :
    Function.Injective (fun a => applyTriple a m) := by
  intro a b hab
  simp only [applyTriple, Prod.mk.injEq] at hab
  have h1 := applyNode_injective h hab.1
  have h2 := applyNode_injective h hab.2.1
  have h3 := applyNode_injective h hab.2.2
  exact Prod.ext h1 (Prod.ext h2 h3)

/-! ## Generic orbit enumeration (the BFS shared by `findRepresentativeCommodities`,
`findRepresentativeAuxs` and `findRepresentativeCommodityFlowLinksByCommodity`).

The Python code keeps `tovisit` as a set of `(object, parent)` pairs, pops an
arbitrary element, marks it visited/member, and pushes every generator image
not yet visited (saving a member-to-representative artifact at discovery
time).  We model the set as an insertion-ordered duplicate-free list, popping
the head.  The loop takes explicit fuel; `none` means the fuel ran out, and
all theorems are about completed (`some`) runs. -/

/-- Add an element to an insertion-ordered list modelling a Python set
(`set.add`): no-op if already present, else appended at the end. -/
def insertNew {β : Type} [DecidableEq β] (x : β) (xs : List β) : List β :=
  if x ∈ xs then xs else xs ++ [x]

theorem mem_insertNew {β : Type} [DecidableEq β] {x y : β} {xs : List β} :
    y ∈ insertNew x xs ↔ y = x ∨ y ∈ xs := by
  unfold insertNew
  split
  · rename_i hx
    constructor
    · exact Or.inr
    · rintro (rfl | h) <;> [exact hx; exact h]
  · simp [List.mem_append, or_comm]

theorem subset_insertNew {β : Type} [DecidableEq β] (x : β) (xs : List β) :
    xs ⊆ insertNew x xs := fun _ h => mem_insertNew.mpr (Or.inr h)

theorem nodup_insertNew {β : Type} [DecidableEq β] {x : β} {xs : List β}
    (h : xs.Nodup) : (insertNew x xs).Nodup := by
  unfold insertNew
  split
  · exact h
  · simp_all [List.nodup_append]

section OrbitMachinery

variable {α γ σ : Type} [DecidableEq α]
variable (act : γ → α → α) (save : σ → α → α → γ → σ)

/-- The inner `for autmap in Autgen` body of the BFS: for each generator,
compute the image of the popped object `sd`; skip it if already visited,
otherwise record the member-to-representative artifact (`save`) and add the
`(image, parent)` pair to `tovisit`. -/
def scanGens : List γ → α → List α → List (α × α) → σ → List (α × α) × σ
  | [], _, _, tv, st => (tv, st)
  | g :: gs, sd, visited, tv, st =>
    let a := act g sd
    if a ∈ visited then scanGens gs sd visited tv st
    else scanGens gs sd visited (insertNew (a, sd) tv) (save st a sd g)

/-- The `while len(tovisit) > 0` BFS loop.  State: fuel, `tovisit` (list of
`(object, parent)` pairs), global `visited`, this orbit's member set
(`autcomms`, called `popped` here) and the artifact store. -/
def bfsLoop (gens : List γ) :
    Nat → List (α × α) → List α → List α → σ → Option (List α × List α × σ)
  | _, [], visited, popped, st => some (visited, popped, st)
  | 0, _ :: _, _, _, _ => none
  | fuel + 1, (sd, _) :: rest, visited, popped, st =>
    let visited' := insertNew sd visited
    let popped' := insertNew sd popped
    let s := scanGens act save gens sd visited' rest st
    bfsLoop gens fuel s.1 visited' popped' s.2

/-- The outer representative-selection loop: iterate candidates in their given
(sorted) order, skip the visited ones, and run the BFS from each fresh
candidate, which becomes the representative of the discovered orbit. -/
def findOrbits (saveSeed : σ → α → σ) (gens : List γ) (fuel : Nat) :
    List α → List α → List (α × List α) → σ →
    Option (List α × List (α × List α) × σ)
  | [], visited, orbs, st => some (visited, orbs, st)
  | c :: cs, visited, orbs, st =>
    if c ∈ visited then findOrbits saveSeed gens fuel cs visited orbs st
    else
      match bfsLoop act save gens fuel [(c, c)] visited [] (saveSeed st c) with
      | none => none
      | some (v', orb, st') =>
        findOrbits saveSeed gens fuel cs v' (orbs ++ [(c, orb)]) st'

variable {act save}

theorem scanGens_tv_mono {gs : List γ} {sd : α} {vis : List α}
    {tv : List (α × α)} {st : σ} :
    tv ⊆ (scanGens act save gs sd vis tv st).1 := by
  induction gs generalizing tv st with
  | nil => simp [scanGens]
  | cons g gs ih =>
    simp only [scanGens]
    split
    · exact ih
    · exact fun x hx => ih (subset_insertNew _ _ hx)

theorem scanGens_tv_spec {gs : List γ} {sd : α} {vis : List α}
    {tv : List (α × α)} {st : σ} {pr : α × α}
    (h : pr ∈ (scanGens act save gs sd vis tv st).1) :
    pr ∈ tv ∨ (pr.2 = sd ∧ pr.1 ∉ vis ∧ ∃ g ∈ gs, act g sd = pr.1) := by
  induction gs generalizing tv st with
  | nil => simp [scanGens] at h; exact Or.inl h
  | cons g gs ih =>
    simp only [scanGens] at h
    split at h
    · rcases ih h with h' | ⟨h1, h2, g', hg', he⟩
      · exact Or.inl h'
      · exact Or.inr ⟨h1, h2, g', List.mem_cons_of_mem _ hg', he⟩
    · rcases ih h with h' | ⟨h1, h2, g', hg', he⟩
      · rcases mem_insertNew.mp h' with h'' | h''
        · subst h''
          exact Or.inr ⟨rfl, by assumption, g, List.mem_cons_self _ _, rfl⟩
        · exact Or.inl h''
      · exact Or.inr ⟨h1, h2, g', List.mem_cons_of_mem _ hg', he⟩

theorem scanGens_covers {gs : List γ} {sd : α} {vis : List α}
    {tv : List (α × α)} {st : σ} {g : γ} (hg : g ∈ gs) :
    act g sd ∈ vis ∨ (act g sd, sd) ∈ (scanGens act save gs sd vis tv st).1 := by
  induction gs generalizing tv st with
  | nil => cases hg
  | cons g' gs ih =>
    rcases List.mem_cons.mp hg with rfl | hg'
    · simp only [scanGens]
      split
      · exact Or.inl (by assumption)
      · exact Or.inr (scanGens_tv_mono (mem_insertNew.mpr (Or.inl rfl)))
    · simp only [scanGens]
      split
      · exact ih hg'
      · exact ih hg'

/-! ### Correctness lemmas for the BFS loop -/

theorem bfsLoop_mono {gens : List γ} {fuel : Nat} {tv : List (α × α)}
    {vis pop : List α} {st : σ} {v p : List α} {s' : σ}
    (h : bfsLoop act save gens fuel tv vis pop st = some (v, p, s')) :
    vis ⊆ v ∧ pop ⊆ p := by
  induction fuel generalizing tv vis pop st with
  | zero =>
    cases tv with
    | nil => simp only [bfsLoop, Option.some.injEq] at h; obtain ⟨rfl, rfl, rfl⟩ := h; exact ⟨fun _ h => h, fun _ h => h⟩
    | cons hd tl => simp [bfsLoop] at h
  | succ fuel ih =>
    cases tv with
    | nil => simp only [bfsLoop, Option.some.injEq] at h; obtain ⟨rfl, rfl, rfl⟩ := h; exact ⟨fun _ h => h, fun _ h => h⟩
    | cons hd tl =>
      obtain ⟨sd, par⟩ := hd
      simp only [bfsLoop] at h
      obtain ⟨h1, h2⟩ := ih h
      exact ⟨fun x hx => h1 (subset_insertNew _ _ hx),
             fun x hx => h2 (subset_insertNew _ _ hx)⟩

theorem bfsLoop_visited_iff {gens : List γ} {fuel : Nat} {tv : List (α × α)}
    {vis pop : List α} {st : σ} {v p : List α} {s' : σ}
    (h : bfsLoop act save gens fuel tv vis pop st = some (v, p, s'))
    (hpv : pop ⊆ vis) : ∀ x, x ∈ v ↔ x ∈ vis ∨ x ∈ p := by
  induction fuel generalizing tv vis pop st with
  | zero =>
    cases tv with
    | nil =>
      simp only [bfsLoop, Option.some.injEq] at h; obtain ⟨rfl, rfl, rfl⟩ := h
      exact fun x => ⟨Or.inl, fun h' => h'.elim id (fun hx => hpv hx)⟩
    | cons hd tl => simp [bfsLoop] at h
  | succ fuel ih =>
    cases tv with
    | nil =>
      simp only [bfsLoop, Option.some.injEq] at h; obtain ⟨rfl, rfl, rfl⟩ := h
      exact fun x => ⟨Or.inl, fun h' => h'.elim id (fun hx => hpv hx)⟩
    | cons hd tl =>
      obtain ⟨sd, par⟩ := hd
      simp only [bfsLoop] at h
      have hpv' : insertNew sd pop ⊆ insertNew sd vis := by
        intro x hx
        rcases mem_insertNew.mp hx with rfl | hx'
        · exact mem_insertNew.mpr (Or.inl rfl)
        · exact mem_insertNew.mpr (Or.inr (hpv hx'))
      have hiff := ih h hpv'
      intro x
      rw [hiff x]
      constructor
      · rintro (hx | hx)
        · rcases mem_insertNew.mp hx with rfl | hx'
          · exact Or.inr ((bfsLoop_mono h).2 (mem_insertNew.mpr (Or.inl rfl)))
          · exact Or.inl hx'
        · exact Or.inr hx
      · rintro (hx | hx)
        · exact Or.inl (mem_insertNew.mpr (Or.inr hx))
        · exact Or.inr hx

theorem bfsLoop_tovisit_popped {gens : List γ} {fuel : Nat} {tv : List (α × α)}
    {vis pop : List α} {st : σ} {v p : List α} {s' : σ}
    (h : bfsLoop act save gens fuel tv vis pop st = some (v, p, s')) :
    ∀ pr ∈ tv, pr.1 ∈ p := by
  induction fuel generalizing tv vis pop st with
  | zero =>
    cases tv with
    | nil => intro pr hpr; cases hpr
    | cons hd tl => simp [bfsLoop] at h
  | succ fuel ih =>
    cases tv with
    | nil => intro pr hpr; cases hpr
    | cons hd tl =>
      obtain ⟨sd, par⟩ := hd
      simp only [bfsLoop] at h
      intro pr hpr
      rcases List.mem_cons.mp hpr with rfl | hpr'
      · exact (bfsLoop_mono h).2 (mem_insertNew.mpr (Or.inl rfl))
      · exact ih h pr (scanGens_tv_mono hpr')

theorem bfsLoop_closure {gens : List γ} {fuel : Nat} {tv : List (α × α)}
    {vis pop : List α} {st : σ} {v p : List α} {s' : σ}
    (h : bfsLoop act save gens fuel tv vis pop st = some (v, p, s'))
    (hpv : pop ⊆ vis) :
    ∀ x ∈ p, x ∉ pop → ∀ g ∈ gens, act g x ∈ v := by
  induction fuel generalizing tv vis pop st with
  | zero =>
    cases tv with
    | nil =>
      simp only [bfsLoop, Option.some.injEq] at h; obtain ⟨rfl, rfl, rfl⟩ := h
      intro x hx hx'; exact absurd hx hx'
    | cons hd tl => simp [bfsLoop] at h
  | succ fuel ih =>
    cases tv with
    | nil =>
      simp only [bfsLoop, Option.some.injEq] at h; obtain ⟨rfl, rfl, rfl⟩ := h
      intro x hx hx'; exact absurd hx hx'
    | cons hd tl =>
      obtain ⟨sd, par⟩ := hd
      simp only [bfsLoop] at h
      have hpv' : insertNew sd pop ⊆ insertNew sd vis := by
        intro x hx
        rcases mem_insertNew.mp hx with rfl | hx'
        · exact mem_insertNew.mpr (Or.inl rfl)
        · exact mem_insertNew.mpr (Or.inr (hpv hx'))
      intro x hx hxpop g hg
      by_cases hxsd : x = sd
      · subst hxsd
        rcases @scanGens_covers α γ σ _ act save gens x (insertNew x vis) tl st g hg
          with hc | hc
        · exact (bfsLoop_mono h).1 hc
        · have hp : act g x ∈ p := bfsLoop_tovisit_popped h _ hc
          exact (bfsLoop_visited_iff h hpv' (act g x)).mpr (Or.inr hp)
      · have hxpop' : x ∉ insertNew sd pop := by
          intro hc; rcases mem_insertNew.mp hc with h' | h' <;> [exact hxsd h'; exact hxpop h']
        exact ih h hpv' x hx hxpop' g hg

theorem bfsLoop_fresh {gens : List γ} {fuel : Nat} {tv : List (α × α)}
    {vis pop : List α} {st : σ} {v p : List α} {s' : σ} {V : List α}
    (h : bfsLoop act save gens fuel tv vis pop st = some (v, p, s'))
    (hV : V ⊆ vis) (htv : ∀ pr ∈ tv, pr.1 ∉ V) :
    ∀ x ∈ p, x ∉ pop → x ∉ V := by
  induction fuel generalizing tv vis pop st with
  | zero =>
    cases tv with
    | nil =>
      simp only [bfsLoop, Option.some.injEq] at h; obtain ⟨rfl, rfl, rfl⟩ := h
      intro x hx hx'; exact absurd hx hx'
    | cons hd tl => simp [bfsLoop] at h
  | succ fuel ih =>
    cases tv with
    | nil =>
      simp only [bfsLoop, Option.some.injEq] at h; obtain ⟨rfl, rfl, rfl⟩ := h
      intro x hx hx'; exact absurd hx hx'
    | cons hd tl =>
      obtain ⟨sd, par⟩ := hd
      simp only [bfsLoop] at h
      have hV' : V ⊆ insertNew sd vis := fun x hx => subset_insertNew _ _ (hV hx)
      have htv' : ∀ pr ∈ (scanGens act save gens sd (insertNew sd vis) tl st).1,
          pr.1 ∉ V := by
        intro pr hpr
        rcases scanGens_tv_spec hpr with hpr' | ⟨_, h2, _⟩
        · exact htv pr (List.mem_cons_of_mem _ hpr')
        · exact fun hc => h2 (subset_insertNew _ _ (hV hc))
      intro x hx hxpop
      by_cases hxsd : x = sd
      · subst hxsd
        exact htv (x, par) (List.mem_cons_self _ _)
      · have hxpop' : x ∉ insertNew sd pop := by
          intro hc; rcases mem_insertNew.mp hc with h' | h' <;> [exact hxsd h'; exact hxpop h']
        exact ih h hV' htv' x hx hxpop'

theorem bfsLoop_domain {gens : List γ} {fuel : Nat} {tv : List (α × α)}
    {vis pop : List α} {st : σ} {v p : List α} {s' : σ} {D : List α}
    (h : bfsLoop act save gens fuel tv vis pop st = some (v, p, s'))
    (hD : ∀ g ∈ gens, ∀ x ∈ D, act g x ∈ D)
    (htv : ∀ pr ∈ tv, pr.1 ∈ D) (hpop : pop ⊆ D) :
    p ⊆ D := by
  induction fuel generalizing tv vis pop st with
  | zero =>
    cases tv with
    | nil => simp only [bfsLoop, Option.some.injEq] at h; obtain ⟨rfl, rfl, rfl⟩ := h; exact hpop
    | cons hd tl => simp [bfsLoop] at h
  | succ fuel ih =>
    cases tv with
    | nil => simp only [bfsLoop, Option.some.injEq] at h; obtain ⟨rfl, rfl, rfl⟩ := h; exact hpop
    | cons hd tl =>
      obtain ⟨sd, par⟩ := hd
      simp only [bfsLoop] at h
      have hsd : sd ∈ D := htv (sd, par) (List.mem_cons_self _ _)
      have htv' : ∀ pr ∈ (scanGens act save gens sd (insertNew sd vis) tl st).1,
          pr.1 ∈ D := by
        intro pr hpr
        rcases scanGens_tv_spec hpr with hpr' | ⟨_, _, g, hg, he⟩
        · exact htv pr (List.mem_cons_of_mem _ hpr')
        · exact he ▸ hD g hg sd hsd
      have hpop' : insertNew sd pop ⊆ D := by
        intro x hx
        rcases mem_insertNew.mp hx with rfl | hx'
        · exact hsd
        · exact hpop hx'
      exact ih h htv' hpop'

theorem bfsLoop_nodup {gens : List γ} {fuel : Nat} {tv : List (α × α)}
    {vis pop : List α} {st : σ} {v p : List α} {s' : σ}
    (h : bfsLoop act save gens fuel tv vis pop st = some (v, p, s'))
    (hpop : pop.Nodup) : p.Nodup := by
  induction fuel generalizing tv vis pop st with
  | zero =>
    cases tv with
    | nil => simp only [bfsLoop, Option.some.injEq] at h; obtain ⟨rfl, rfl, rfl⟩ := h; exact hpop
    | cons hd tl => simp [bfsLoop] at h
  | succ fuel ih =>
    cases tv with
    | nil => simp only [bfsLoop, Option.some.injEq] at h; obtain ⟨rfl, rfl, rfl⟩ := h; exact hpop
    | cons hd tl =>
      obtain ⟨sd, par⟩ := hd
      simp only [bfsLoop] at h
      exact ih h (nodup_insertNew hpop)

/-- A finite set (list) closed under an injective map is closed under its
preimage: this is the group-theoretic fact that makes forward-only
generator application enumerate true orbits. -/
theorem closed_list_preimage {f : α → α} (hinj : Function.Injective f)
    {V : List α} (hcl : ∀ x ∈ V, f x ∈ V) {x : α} (hx : f x ∈ V) : x ∈ V := by
  have himg : V.toFinset.image f ⊆ V.toFinset := by
    intro y hy
    simp only [Finset.mem_image, List.mem_toFinset] at hy
    obtain ⟨z, hz, rfl⟩ := hy
    exact List.mem_toFinset.mpr (hcl z hz)
  have hcard : V.toFinset.card ≤ (V.toFinset.image f).card :=
    le_of_eq (Finset.card_image_of_injective _ hinj).symm
  have heq : V.toFinset.image f = V.toFinset :=
    Finset.eq_of_subset_of_card_le himg hcard
  have hmem : f x ∈ V.toFinset := List.mem_toFinset.mpr hx
  rw [← heq] at hmem
  obtain ⟨z, hz, he⟩ := Finset.mem_image.mp hmem
  have hzx := hinj he
  subst hzx
  exact List.mem_toFinset.mp hz

/-! ### Correctness lemmas for the outer representative loop -/

variable {saveSeed : σ → α → σ}

theorem findOrbits_mono {gens : List γ} {fuel : Nat} {cands : List α}
    {vis : List α} {orbs : List (α × List α)} {st : σ}
    {v : List α} {orbs' : List (α × List α)} {st' : σ}
    (h : findOrbits act save saveSeed gens fuel cands vis orbs st
          = some (v, orbs', st')) :
    vis ⊆ v ∧ ∀ ro ∈ orbs, ro ∈ orbs' := by
  induction cands generalizing vis orbs st with
  | nil =>
    simp only [findOrbits, Option.some.injEq] at h; obtain ⟨rfl, rfl, rfl⟩ := h
    exact ⟨fun _ h => h, fun _ h => h⟩
  | cons c cs ih =>
    simp only [findOrbits] at h
    split at h
    · exact ih h
    · split at h
      · exact absurd h (by simp)
      · rename_i v₁ orb st₁ heq
        obtain ⟨h1, h2⟩ := ih h
        refine ⟨fun x hx => h1 ((bfsLoop_mono heq).1 hx), fun ro hro => ?_⟩
        exact h2 ro (List.mem_append.mpr (Or.inl hro))

theorem findOrbits_coverage {gens : List γ} {fuel : Nat} {cands : List α}
    {vis : List α} {orbs : List (α × List α)} {st : σ}
    {v : List α} {orbs' : List (α × List α)} {st' : σ}
    (h : findOrbits act save saveSeed gens fuel cands vis orbs st
          = some (v, orbs', st')) :
    ∀ c ∈ cands, c ∈ v := by
  induction cands generalizing vis orbs st with
  | nil => intro c hc; cases hc
  | cons c cs ih =>
    simp only [findOrbits] at h
    intro c' hc'
    split at h
    · rcases List.mem_cons.mp hc' with rfl | hc''
      · exact (findOrbits_mono h).1 (by assumption)
      · exact ih h c' hc''
    · split at h
      · exact absurd h (by simp)
      · rename_i v₁ orb st₁ heq
        rcases List.mem_cons.mp hc' with rfl | hc''
        · have hc1 : c' ∈ orb :=
            bfsLoop_tovisit_popped heq (c', c') (List.mem_cons_self _ _)
          have : c' ∈ v₁ :=
            (bfsLoop_visited_iff heq (by simp) c').mpr (Or.inr hc1)
          exact (findOrbits_mono h).1 this
        · exact ih h c' hc''

theorem findOrbits_visited_spec {gens : List γ} {fuel : Nat} {cands : List α}
    {vis : List α} {orbs : List (α × List α)} {st : σ}
    {v : List α} {orbs' : List (α × List α)} {st' : σ}
    (h : findOrbits act save saveSeed gens fuel cands vis orbs st
          = some (v, orbs', st')) :
    ∀ x ∈ v, x ∈ vis ∨ ∃ ro ∈ orbs', x ∈ ro.2 := by
  induction cands generalizing vis orbs st with
  | nil =>
    simp only [findOrbits, Option.some.injEq] at h; obtain ⟨rfl, rfl, rfl⟩ := h
    exact fun x hx => Or.inl hx
  | cons c cs ih =>
    simp only [findOrbits] at h
    split at h
    · exact ih h
    · split at h
      · exact absurd h (by simp)
      · rename_i v₁ orb st₁ heq
        intro x hx
        rcases ih h x hx with hx' | hx'
        · rcases (bfsLoop_visited_iff heq (by simp) x).mp hx' with hx'' | hx''
          · exact Or.inl hx''
          · refine Or.inr ⟨(c, orb), ?_, hx''⟩
            exact (findOrbits_mono h).2 _ (List.mem_append.mpr (Or.inr (by simp)))
        · exact Or.inr hx'

theorem findOrbits_orb_basic {gens : List γ} {fuel : Nat} {cands : List α}
    {vis : List α} {orbs : List (α × List α)} {st : σ}
    {v : List α} {orbs' : List (α × List α)} {st' : σ}
    (h : findOrbits act save saveSeed gens fuel cands vis orbs st
          = some (v, orbs', st')) :
    ∀ ro ∈ orbs', ro ∈ orbs ∨
      (ro.1 ∈ ro.2 ∧ ro.2.Nodup ∧ ro.2 ⊆ v ∧ ∀ x ∈ ro.2, x ∉ vis) := by
  induction cands generalizing vis orbs st with
  | nil =>
    simp only [findOrbits, Option.some.injEq] at h; obtain ⟨rfl, rfl, rfl⟩ := h
    exact fun ro hro => Or.inl hro
  | cons c cs ih =>
    simp only [findOrbits] at h
    split at h
    · rename_i hcv
      intro ro hro
      rcases ih h ro hro with h' | ⟨h1, h2, h3, h4⟩
      · exact Or.inl h'
      · exact Or.inr ⟨h1, h2, h3, h4⟩
    · rename_i hcv
      split at h
      · exact absurd h (by simp)
      · rename_i v₁ orb st₁ heq
        intro ro hro
        rcases ih h ro hro with h' | ⟨h1, h2, h3, h4⟩
        · rcases List.mem_append.mp h' with h'' | h''
          · exact Or.inl h''
          · -- the newly produced orbit
            have hro' : ro = (c, orb) := by simpa using h''
            subst hro'
            have hrep : c ∈ orb :=
              bfsLoop_tovisit_popped heq (c, c) (List.mem_cons_self _ _)
            have hnd : orb.Nodup := bfsLoop_nodup heq List.nodup_nil
            have hsub : orb ⊆ v := by
              intro x hx
              have : x ∈ v₁ :=
                (bfsLoop_visited_iff heq (by simp) x).mpr (Or.inr hx)
              exact (findOrbits_mono h).1 this
            have hfresh : ∀ x ∈ orb, x ∉ vis := by
              intro x hx
              exact bfsLoop_fresh heq (fun _ h => h)
                (by intro pr hpr; rcases List.mem_cons.mp hpr with rfl | hpr'
                    · exact hcv
                    · cases hpr') x hx (by simp)
            exact Or.inr ⟨hrep, hnd, hsub, hfresh⟩
        · refine Or.inr ⟨h1, h2, h3, fun x hx hxv => ?_⟩
          exact h4 x hx ((bfsLoop_mono heq).1 hxv)

/-- Number of computed orbits containing a given object. -/
def orbitCount (c : α) (orbs : List (α × List α)) : Nat :=
  orbs.countP fun ro => decide (c ∈ ro.2)

theorem findOrbits_disjoint {gens : List γ} {fuel : Nat} {cands : List α}
    {vis : List α} {orbs : List (α × List α)} {st : σ}
    {v : List α} {orbs' : List (α × List α)} {st' : σ}
    (h : findOrbits act save saveSeed gens fuel cands vis orbs st
          = some (v, orbs', st'))
    (hin : ∀ ro ∈ orbs, ∀ y ∈ ro.2, y ∈ vis)
    (hcnt : ∀ x, orbitCount x orbs ≤ 1) :
    ∀ x, orbitCount x orbs' ≤ 1 := by
  unfold orbitCount at *
  induction cands generalizing vis orbs st with
  | nil =>
    simp only [findOrbits, Option.some.injEq] at h; obtain ⟨rfl, rfl, rfl⟩ := h
    exact hcnt
  | cons c cs ih =>
    simp only [findOrbits] at h
    split at h
    · exact ih h hin hcnt
    · rename_i hcv
      split at h
      · exact absurd h (by simp)
      · rename_i v₁ orb st₁ heq
        have hfresh : ∀ x ∈ orb, x ∉ vis := by
          intro x hx
          exact bfsLoop_fresh heq (fun _ h => h)
            (by intro pr hpr; rcases List.mem_cons.mp hpr with rfl | hpr'
                · exact hcv
                · cases hpr') x hx (by simp)
        have horb₁ : orb ⊆ v₁ := by
          intro x hx
          exact (bfsLoop_visited_iff heq (by simp) x).mpr (Or.inr hx)
        refine ih h ?_ ?_
        · intro ro hro y hy
          rcases List.mem_append.mp hro with h' | h'
          · exact (bfsLoop_mono heq).1 (hin ro h' y hy)
          · have : ro = (c, orb) := by simpa using h'
            subst this
            exact horb₁ hy
        · intro x
          rw [List.countP_append]
          by_cases hx : x ∈ orb
          · have hz : (orbs.countP fun ro => decide (x ∈ ro.2)) = 0 := by
              rw [List.countP_eq_zero]
              intro ro hro
              simp only [decide_eq_true_eq]
              intro hc
              exact hfresh x hx (hin ro hro x hc)
            have hone : ([(c, orb)].countP fun ro => decide (x ∈ ro.2)) ≤ 1 :=
              le_trans (List.countP_le_length _) (by simp)
            omega
          · have hone : ([(c, orb)].countP fun ro => decide (x ∈ ro.2)) = 0 := by
              rw [List.countP_eq_zero]
              intro ro hro
              have : ro = (c, orb) := by simpa using hro
              subst this
              simpa using hx
            have := hcnt x
            omega

theorem findOrbits_closure {gens : List γ} {fuel : Nat} {cands : List α}
    {vis : List α} {orbs : List (α × List α)} {st : σ}
    {v : List α} {orbs' : List (α × List α)} {st' : σ}
    (h : findOrbits act save saveSeed gens fuel cands vis orbs st
          = some (v, orbs', st'))
    (hinj : ∀ g ∈ gens, Function.Injective (act g))
    (hclvis : ∀ x ∈ vis, ∀ g ∈ gens, act g x ∈ vis)
    (hprev : ∀ ro ∈ orbs, ∀ x ∈ ro.2, ∀ g ∈ gens, act g x ∈ ro.2) :
    ∀ ro ∈ orbs', ∀ x ∈ ro.2, ∀ g ∈ gens, act g x ∈ ro.2 := by
  induction cands generalizing vis orbs st with
  | nil =>
    simp only [findOrbits, Option.some.injEq] at h; obtain ⟨rfl, rfl, rfl⟩ := h
    exact hprev
  | cons c cs ih =>
    simp only [findOrbits] at h
    split at h
    · exact ih h hclvis hprev
    · rename_i hcv
      split at h
      · exact absurd h (by simp)
      · rename_i v₁ orb st₁ heq
        have hfresh : ∀ x ∈ orb, x ∉ vis := by
          intro x hx
          exact bfsLoop_fresh heq (fun _ h => h)
            (by intro pr hpr; rcases List.mem_cons.mp hpr with rfl | hpr'
                · exact hcv
                · cases hpr') x hx (by simp)
        have hv₁iff := bfsLoop_visited_iff heq (by simp)
        have horbclosed : ∀ x ∈ orb, ∀ g ∈ gens, act g x ∈ orb := by
          intro x hx g hg
          have hcl := bfsLoop_closure heq (by simp) x hx (by simp) g hg
          rcases (hv₁iff (act g x)).mp hcl with h' | h'
          · exfalso
            exact hfresh x hx (closed_list_preimage (hinj g hg)
              (fun y hy => hclvis y hy g hg) h')
          · exact h'
        have hclvis' : ∀ x ∈ v₁, ∀ g ∈ gens, act g x ∈ v₁ := by
          intro x hx g hg
          rcases (hv₁iff x).mp hx with h' | h'
          · exact (hv₁iff (act g x)).mpr (Or.inl (hclvis x h' g hg))
          · exact (hv₁iff (act g x)).mpr (Or.inr (horbclosed x h' g hg))
        refine ih h hclvis' ?_
        intro ro hro
        rcases List.mem_append.mp hro with h' | h'
        · exact hprev ro h'
        · have : ro = (c, orb) := by simpa using h'
          subst this
          exact horbclosed

theorem findOrbits_domain {gens : List γ} {fuel : Nat} {cands : List α}
    {vis : List α} {orbs : List (α × List α)} {st : σ}
    {v : List α} {orbs' : List (α × List α)} {st' : σ} {D : List α}
    (h : findOrbits act save saveSeed gens fuel cands vis orbs st
          = some (v, orbs', st'))
    (hD : ∀ g ∈ gens, ∀ x ∈ D, act g x ∈ D) (hc : cands ⊆ D) :
    ∀ ro ∈ orbs', ro ∈ orbs ∨ (ro.1 ∈ D ∧ ro.2 ⊆ D) := by
  induction cands generalizing vis orbs st with
  | nil =>
    simp only [findOrbits, Option.some.injEq] at h; obtain ⟨rfl, rfl, rfl⟩ := h
    exact fun ro hro => Or.inl hro
  | cons c cs ih =>
    simp only [findOrbits] at h
    have hcD : c ∈ D := hc (List.mem_cons_self _ _)
    have hcs : cs ⊆ D := fun x hx => hc (List.mem_cons_of_mem _ hx)
    split at h
    · exact ih h hcs
    · split at h
      · exact absurd h (by simp)
      · rename_i v₁ orb st₁ heq
        intro ro hro
        rcases ih h hcs ro hro with h' | h'
        · rcases List.mem_append.mp h' with h'' | h''
          · exact Or.inl h''
          · have : ro = (c, orb) := by simpa using h''
            subst this
            refine Or.inr ⟨hcD, ?_⟩
            exact bfsLoop_domain heq hD
              (by intro pr hpr; rcases List.mem_cons.mp hpr with rfl | hpr'
                  · exact hcD
                  · cases hpr') (by simp)
        · exact Or.inr h'

end OrbitMachinery

/-! ## Python dict / sort helpers -/

/-- Lookup in an insertion-ordered association list (Python `dict[k]`). -/
def lookupAssoc {κ ν : Type} [DecidableEq κ] (k : κ) : List (κ × ν) → Option ν
  | [] => none
  | (k', v) :: rest => if k' = k then some v else lookupAssoc k rest

/-- Write in an insertion-ordered association list (Python `dict[k] = v`):
overwrite in place if present, else append. -/
def setAssoc {κ ν : Type} [DecidableEq κ] (k : κ) (v : ν) : List (κ × ν) → List (κ × ν)
  | [] => [(k, v)]
  | (k', v') :: rest =>
    if k' = k then (k, v) :: rest else (k', v') :: setAssoc k v rest

theorem lookupAssoc_setAssoc_self {κ ν : Type} [DecidableEq κ] (k : κ) (v : ν)
    (m : List (κ × ν)) : lookupAssoc k (setAssoc k v m) = some v := by
  induction m with
  | nil => simp [setAssoc, lookupAssoc]
  | cons hd tl ih =>
    obtain ⟨k', v'⟩ := hd
    by_cases h : k' = k
    · subst h; simp [setAssoc, lookupAssoc]
    · simp [setAssoc, lookupAssoc, h, ih]

theorem lookupAssoc_setAssoc_ne {κ ν : Type} [DecidableEq κ] {k k' : κ} (v : ν)
    (m : List (κ × ν)) (h : k' ≠ k) :
    lookupAssoc k' (setAssoc k v m) = lookupAssoc k' m := by
  have hkk : ¬(k = k') := fun hc => h hc.symm
  induction m with
  | nil => simp [setAssoc, lookupAssoc, if_neg hkk]
  | cons hd tl ih =>
    obtain ⟨k₀, v₀⟩ := hd
    by_cases h0 : k₀ = k
    · subst h0
      simp [setAssoc, lookupAssoc, if_neg hkk]
    · simp only [setAssoc, if_neg h0, lookupAssoc]
      by_cases h1 : k₀ = k'
      · simp [h1]
      · simp [h1, ih]

/-- Insertion sort (used to model Python `list.sort()`). -/
def insertSorted {β : Type} (le : β → β → Bool) (x : β) : List β → List β
  | [] => [x]
  | y :: ys => if le x y then x :: y :: ys else y :: insertSorted le x ys

def sortList {β : Type} (le : β → β → Bool) : List β → List β
  | [] => []
  | x :: xs => insertSorted le x (sortList le xs)

theorem insertSorted_perm {β : Type} (le : β → β → Bool) (x : β) (l : List β) :
    List.Perm (insertSorted le x l) (x :: l) := by
  induction l with
  | nil => exact List.Perm.refl _
  | cons y ys ih =>
    simp only [insertSorted]
    split
    · exact List.Perm.refl _
    · exact (List.Perm.cons y ih).trans (List.Perm.swap x y ys)

theorem sortList_perm {β : Type} (le : β → β → Bool) (l : List β) :
    List.Perm (sortList le l) l := by
  induction l with
  | nil => exact List.Perm.refl _
  | cons x xs ih =>
    exact (insertSorted_perm le x (sortList le xs)).trans (List.Perm.cons x ih)

theorem mem_sortList {β : Type} {le : β → β → Bool} {x : β} {l : List β} :
    x ∈ sortList le l ↔ x ∈ l := (sortList_perm le l).mem_iff

/-- Lexicographic `≤` on pairs (Python's tuple order). -/
def pairLe (a b : Nat × Nat) : Bool :=
  decide (a.1 < b.1 ∨ (a.1 = b.1 ∧ a.2 ≤ b.2))

/-- Lexicographic `≤` on triples (Python's tuple order). -/
def tripleLe (a b : Nat × Nat × Nat) : Bool :=
  decide (a.1 < b.1) || (decide (a.1 = b.1) && pairLe a.2 b.2)

/-! ## The stored forward/reverse automorphic maps
(`saveCommodityAutomorphicMap` in `topology_automorphism.py`). -/

/-- The reverse map built by
`rmap = [None]*len(fmap); for i in range(len(fmap)): rmap[fmap[i]] = i`. -/
def buildReverseMap (fmap : List Nat) : List (Option Nat) :=
  (List.range fmap.length).foldl (fun acc i => acc.set (applyNode fmap i) (some i))
    (List.replicate fmap.length none)

theorem foldl_set_length (f : List Nat) (is : List Nat) (acc : List (Option Nat)) :
    (is.foldl (fun acc i => acc.set (applyNode f i) (some i)) acc).length
      = acc.length := by
  induction is generalizing acc with
  | nil => rfl
  | cons i is ih => simp [List.foldl_cons, ih]

theorem foldl_set_untouched (f : List Nat) {is : List Nat}
    {acc : List (Option Nat)} {j : Nat}
    (h : ∀ i ∈ is, applyNode f i ≠ j) :
    (is.foldl (fun acc i => acc.set (applyNode f i) (some i)) acc)[j]?
      = acc[j]? := by
  induction is generalizing acc with
  | nil => rfl
  | cons i is ih =>
    simp only [List.foldl_cons]
    rw [ih (fun i' hi' => h i' (List.mem_cons_of_mem _ hi'))]
    exact List.getElem?_set_ne (h i (List.mem_cons_self _ _))

theorem buildReverseMap_length (f : List Nat) :
    (buildReverseMap f).length = f.length := by
  unfold buildReverseMap
  rw [foldl_set_length, List.length_replicate]

theorem foldl_set_hits (f : List Nat) {is : List Nat} {acc : List (Option Nat)}
    {i : Nat} (hnd : is.Nodup) (hmem : i ∈ is)
    (hinj : Function.Injective (applyNode f))
    (hlt : applyNode f i < acc.length) :
    (is.foldl (fun acc i => acc.set (applyNode f i) (some i)) acc)[applyNode f i]?
      = some (some i) := by
  induction is generalizing acc with
  | nil => cases hmem
  | cons i' rest ih =>
    simp only [List.foldl_cons]
    by_cases hii : i' = i
    · subst hii
      have hnotin : i' ∉ rest := (List.nodup_cons.mp hnd).1
      have hnt : ∀ a ∈ rest, applyNode f a ≠ applyNode f i' := by
        intro a ha hc
        have haeq : a = i' := hinj hc
        subst haeq
        exact hnotin ha
      rw [foldl_set_untouched f hnt]
      exact List.getElem?_set_self (by simpa using hlt)
    · have hmem' : i ∈ rest := by
        rcases List.mem_cons.mp hmem with h | h
        · exact absurd h.symm hii
        · exact h
      exact ih (List.nodup_cons.mp hnd).2 hmem' (by simpa using hlt)

theorem buildReverseMap_get {N : Nat} {f : List Nat} (hf : IsPermOn N f)
    {i : Nat} (hi : i < N) :
    (buildReverseMap f)[applyNode f i]? = some (some i) := by
  unfold buildReverseMap
  refine foldl_set_hits f (List.nodup_range _) ?_ (applyNode_injective hf) ?_
  · rw [hf.1]; exact List.mem_range.mpr hi
  · rw [List.length_replicate, hf.1]
    exact applyNode_lt hf hi

theorem applyNode_range {N k : Nat} : applyNode (List.range N) k = k := by
  by_cases h : k < N
  · simp [applyNode, List.getD_eq_getElem?_getD, List.getElem?_range h]
  · exact applyNode_of_ge (by simpa using Nat.le_of_not_lt h)

theorem isPermOn_range (N : Nat) : IsPermOn N (List.range N) :=
  ⟨List.length_range N, List.nodup_range N, fun _ hx => List.mem_range.mp hx⟩

theorem isPermOn_applyGenerator {N : Nat} {pf g : List Nat}
    (hpf : IsPermOn N pf) (hg : IsPermOn N g) :
    IsPermOn N (applyGenerator pf g) := by
  refine ⟨by simp [applyGenerator, hpf.1], ?_, ?_⟩
  · exact hpf.2.1.map (applyNode_injective hg)
  · intro x hx
    obtain ⟨y, hy, rfl⟩ := List.mem_map.mp hx
    exact applyNode_lt hg (hpf.2.2 y hy)

theorem applyNode_applyGenerator {N : Nat} {pf g : List Nat}
    (hpf : IsPermOn N pf) {k : Nat} (hk : k < N) :
    applyNode (applyGenerator pf g) k = applyNode g (applyNode pf k) := by
  have hk' : k < pf.length := by rw [hpf.1]; exact hk
  simp only [applyGenerator, applyNode, List.getD_eq_getElem?_getD,
    List.getElem?_map, List.getElem?_eq_getElem hk', Option.map_some',
    Option.getD_some]

theorem applyPair_applyGenerator {N : Nat} {pf g : List Nat}
    (hpf : IsPermOn N pf) {sd : Nat × Nat} (h1 : sd.1 < N) (h2 : sd.2 < N) :
    applyPair sd (applyGenerator pf g) = applyPair (applyPair sd pf) g := by
  simp [applyPair, applyNode_applyGenerator hpf h1, applyNode_applyGenerator hpf h2]

/-! ## `findRepresentativeCommodities` and the stored automorphic maps -/

/-- The per-commodity artifact store: commodity ↦ (forward map, reverse map),
modelling the `..._AutomorphicMap_Forward` / `..._Reverse` pickle files. -/
abbrev CommStore := List ((Nat × Nat) × (List Nat × List (Option Nat)))

/-- The generator action on commodities. -/
def actComm (g : List Nat) (sd : Nat × Nat) : Nat × Nat := applyPair sd g

/-- `Topology.saveCommodityAutomorphicMap`: for the representative itself
(`sd == parent`) store the identity permutation as both maps; otherwise
compose the parent's forward map with the discovering generator and invert
it position-by-position.  (The source stores the seed's reverse map as the
same tuple of ints; we wrap its entries in `some` so both branches have one
type.)  A missing parent entry — impossible on runs of
`findRepresentativeCommodities`, see `bfsLoop_commQ` — leaves the store
unchanged. -/
def saveCommodityAutomorphicMap (N : Nat) (st : CommStore)
    (sd parent : Nat × Nat) (autmap : List Nat) : CommStore :=
  if sd = parent then
    setAssoc sd (List.range N, (List.range N).map some) st
  else
    match lookupAssoc parent st with
    | some pm =>
      let fmap := applyGenerator pm.1 autmap
      setAssoc sd (fmap, buildReverseMap fmap) st
    | none => st

/-- `set(itertools.permutations(self.HostNodes, 2))`. -/
def commodityPairs (hosts : List Nat) : List (Nat × Nat) :=
  hosts.flatMap (fun s => (hosts.filter (fun d => decide (d ≠ s))).map (fun d => (s, d)))

/-- `commodities = list(self.Commodities); commodities.sort()`. -/
def commodityList (hosts : List Nat) : List (Nat × Nat) :=
  sortList pairLe (commodityPairs hosts)

theorem mem_commodityPairs {hosts : List Nat} {c : Nat × Nat} :
    c ∈ commodityPairs hosts ↔ c.1 ∈ hosts ∧ c.2 ∈ hosts ∧ c.2 ≠ c.1 := by
  obtain ⟨s, d⟩ := c
  simp only [commodityPairs, List.mem_flatMap, List.mem_map, List.mem_filter]
  constructor
  · rintro ⟨s', hs', d', ⟨hd', hne⟩, heq⟩
    obtain ⟨rfl, rfl⟩ := Prod.mk.injEq .. ▸ heq
    exact ⟨hs', hd', by simpa using hne⟩
  · rintro ⟨hs, hd, hne⟩
    exact ⟨s, hs, d, ⟨hd, by simpa using hne⟩, rfl⟩

theorem mem_commodityList {hosts : List Nat} {c : Nat × Nat} :
    c ∈ commodityList hosts ↔ c.1 ∈ hosts ∧ c.2 ∈ hosts ∧ c.2 ≠ c.1 := by
  rw [commodityList, mem_sortList, mem_commodityPairs]

/-- `Topology.findRepresentativeCommodities`: enumerate commodity orbits under
the generator action, with the representative (seed) being the least
unvisited commodity in sorted order, saving forward/reverse automorphic maps
at seed creation and at each discovery, exactly as the source does. -/
def findRepresentativeCommodities (N : Nat) (gens : List (List Nat))
    (hosts : List Nat) (fuel : Nat) :
    Option (List (Nat × Nat) × List ((Nat × Nat) × List (Nat × Nat)) × CommStore) :=
  findOrbits actComm (fun st a sd g => saveCommodityAutomorphicMap N st a sd g)
    (fun st c => saveCommodityAutomorphicMap N st c c [])
    gens fuel (commodityList hosts) [] [] ([] : CommStore)

/-- Correctness of a stored (forward, reverse) map pair for member `m` of the
orbit with representative `r`: the forward map is a node permutation whose
coordinate-wise application takes `r`'s structure to `m`'s, and the reverse
map is its positional inverse. -/
def GoodMaps (N : Nat) (r m : Nat × Nat) (fm : List Nat)
    (rm : List (Option Nat)) : Prop :=
  IsPermOn N fm ∧ applyPair r fm = m ∧ rm.length = N ∧
    ∀ i, i < N → rm.getD (applyNode fm i) none = some i

/-- The store holds correct maps for member `m` of representative `r`. -/
def Qcomm (N : Nat) (r m : Nat × Nat) (st : CommStore) : Prop :=
  ∃ fm rm, lookupAssoc m st = some (fm, rm) ∧ GoodMaps N r m fm rm

theorem saveCommodityAutomorphicMap_stable {N : Nat} {st : CommStore}
    {sd parent m : Nat × Nat} {g : List Nat} (hm : m ≠ sd) :
    lookupAssoc m (saveCommodityAutomorphicMap N st sd parent g)
      = lookupAssoc m st := by
  unfold saveCommodityAutomorphicMap
  split
  · exact lookupAssoc_setAssoc_ne _ _ hm
  · split
    · exact lookupAssoc_setAssoc_ne _ _ hm
    · rfl

theorem Qcomm_stable {N : Nat} {r m sd parent : Nat × Nat} {st : CommStore}
    {g : List Nat} (hm : m ≠ sd) (hQ : Qcomm N r m st) :
    Qcomm N r m (saveCommodityAutomorphicMap N st sd parent g) := by
  obtain ⟨fm, rm, hl, hg⟩ := hQ
  exact ⟨fm, rm, (saveCommodityAutomorphicMap_stable hm).trans hl, hg⟩

theorem Qcomm_seed {N : Nat} {r : Nat × Nat} {st : CommStore} {g : List Nat} :
    Qcomm N r r (saveCommodityAutomorphicMap N st r r g) := by
  refine ⟨List.range N, (List.range N).map some, ?_, isPermOn_range N, ?_, ?_, ?_⟩
  · unfold saveCommodityAutomorphicMap
    rw [if_pos rfl]
    exact lookupAssoc_setAssoc_self _ _ _
  · simp [applyPair, applyNode_range]
  · simp
  · intro i hi
    rw [applyNode_range]
    simp [List.getD_eq_getElem?_getD, List.getElem?_map, List.getElem?_range hi]

theorem Qcomm_child {N : Nat} {r sd : Nat × Nat} {g : List Nat} {st : CommStore}
    (hg : IsPermOn N g) (hQ : Qcomm N r sd st) (h1 : r.1 < N) (h2 : r.2 < N)
    (hne : actComm g sd ≠ sd) :
    Qcomm N r (actComm g sd)
      (saveCommodityAutomorphicMap N st (actComm g sd) sd g) := by
  obtain ⟨pf, prm, hl, hpf, hmap, _, _⟩ := hQ
  have hfm : IsPermOn N (applyGenerator pf g) := isPermOn_applyGenerator hpf hg
  refine ⟨applyGenerator pf g, buildReverseMap (applyGenerator pf g), ?_, hfm, ?_, ?_, ?_⟩
  · unfold saveCommodityAutomorphicMap
    rw [if_neg hne, hl]
    exact lookupAssoc_setAssoc_self _ _ _
  · rw [applyPair_applyGenerator hpf h1 h2, hmap]
    rfl
  · rw [buildReverseMap_length]
    simpa [applyGenerator] using hpf.1
  · intro i hi
    rw [List.getD_eq_getElem?_getD, buildReverseMap_get hfm hi]
    rfl

/-- Shorthand for the child-save function passed to the BFS. -/
abbrev saveComm (N : Nat) : CommStore → (Nat × Nat) → (Nat × Nat) → List Nat → CommStore :=
  fun st a sd g => saveCommodityAutomorphicMap N st a sd g

theorem scanGens_comm_stable {N : Nat} {gs : List (List Nat)} {sd : Nat × Nat}
    {vis : List (Nat × Nat)} {tv : List ((Nat × Nat) × (Nat × Nat))}
    {st : CommStore} {m : Nat × Nat} (hm : m ∈ vis) :
    lookupAssoc m (scanGens actComm (saveComm N) gs sd vis tv st).2
      = lookupAssoc m st := by
  induction gs generalizing tv st with
  | nil => rfl
  | cons g gs ih =>
    simp only [scanGens]
    split
    · exact ih
    · rename_i hnv
      rw [ih]
      exact saveCommodityAutomorphicMap_stable (fun hc => hnv (hc ▸ hm))

theorem scanGens_comm_Q {N : Nat} {gs : List (List Nat)} {sd r : Nat × Nat}
    {vis : List (Nat × Nat)} {tv : List ((Nat × Nat) × (Nat × Nat))}
    {st : CommStore}
    (hgens : ∀ g ∈ gs, IsPermOn N g) (h1 : r.1 < N) (h2 : r.2 < N)
    (hsdv : sd ∈ vis) (hsd : Qcomm N r sd st)
    (htv : ∀ pr ∈ tv, Qcomm N r pr.1 st) :
    ∀ pr ∈ (scanGens actComm (saveComm N) gs sd vis tv st).1,
      Qcomm N r pr.1 (scanGens actComm (saveComm N) gs sd vis tv st).2 := by
  induction gs generalizing tv st with
  | nil => exact htv
  | cons g gs ih =>
    simp only [scanGens]
    split
    · exact ih (fun g' hg' => hgens g' (List.mem_cons_of_mem _ hg')) hsd htv
    · rename_i hnv
      have hne : actComm g sd ≠ sd := fun hc => hnv (by rw [hc]; exact hsdv)
      have hQa : Qcomm N r (actComm g sd) (saveComm N st (actComm g sd) sd g) :=
        Qcomm_child (hgens g (List.mem_cons_self _ _)) hsd h1 h2 hne
      refine ih (fun g' hg' => hgens g' (List.mem_cons_of_mem _ hg')) ?_ ?_
      · exact Qcomm_stable hne.symm hsd
      · intro pr hpr
        rcases mem_insertNew.mp hpr with rfl | hpr'
        · exact hQa
        · by_cases hpa : pr.1 = actComm g sd
          · rw [show pr.1 = actComm g sd from hpa]
            exact hQa
          · exact Qcomm_stable hpa (htv pr hpr')

theorem bfsLoop_comm_stable {N : Nat} {gens : List (List Nat)} {fuel : Nat}
    {tv : List ((Nat × Nat) × (Nat × Nat))} {vis pop : List (Nat × Nat)}
    {st : CommStore} {v p : List (Nat × Nat)} {st' : CommStore} {m : Nat × Nat}
    (h : bfsLoop actComm (saveComm N) gens fuel tv vis pop st = some (v, p, st'))
    (hm : m ∈ vis) : lookupAssoc m st' = lookupAssoc m st := by
  induction fuel generalizing tv vis pop st with
  | zero =>
    cases tv with
    | nil => simp only [bfsLoop, Option.some.injEq] at h; obtain ⟨rfl, rfl, rfl⟩ := h; rfl
    | cons hd tl => simp [bfsLoop] at h
  | succ fuel ih =>
    cases tv with
    | nil => simp only [bfsLoop, Option.some.injEq] at h; obtain ⟨rfl, rfl, rfl⟩ := h; rfl
    | cons hd tl =>
      obtain ⟨sd, par⟩ := hd
      simp only [bfsLoop] at h
      rw [ih h (subset_insertNew _ _ hm)]
      exact scanGens_comm_stable (subset_insertNew _ _ hm)

theorem bfsLoop_comm_Q {N : Nat} {gens : List (List Nat)} {fuel : Nat}
    {tv : List ((Nat × Nat) × (Nat × Nat))} {vis pop : List (Nat × Nat)}
    {st : CommStore} {v p : List (Nat × Nat)} {st' : CommStore} {r : Nat × Nat}
    (hgens : ∀ g ∈ gens, IsPermOn N g) (h1 : r.1 < N) (h2 : r.2 < N)
    (h : bfsLoop actComm (saveComm N) gens fuel tv vis pop st = some (v, p, st'))
    (htv : ∀ pr ∈ tv, Qcomm N r pr.1 st)
    (hpop : ∀ x ∈ pop, Qcomm N r x st)
    (hpv : pop ⊆ vis) :
    ∀ x ∈ p, Qcomm N r x st' := by
  induction fuel generalizing tv vis pop st with
  | zero =>
    cases tv with
    | nil => simp only [bfsLoop, Option.some.injEq] at h; obtain ⟨rfl, rfl, rfl⟩ := h; exact hpop
    | cons hd tl => simp [bfsLoop] at h
  | succ fuel ih =>
    cases tv with
    | nil => simp only [bfsLoop, Option.some.injEq] at h; obtain ⟨rfl, rfl, rfl⟩ := h; exact hpop
    | cons hd tl =>
      obtain ⟨sd, par⟩ := hd
      simp only [bfsLoop] at h
      have hsdQ : Qcomm N r sd st := htv (sd, par) (List.mem_cons_self _ _)
      have hsdv' : sd ∈ insertNew sd vis := mem_insertNew.mpr (Or.inl rfl)
      refine ih h ?_ ?_ ?_
      · exact scanGens_comm_Q hgens h1 h2 hsdv' hsdQ
          (fun pr hpr => htv pr (List.mem_cons_of_mem _ hpr))
      · intro x hx
        rcases mem_insertNew.mp hx with rfl | hx'
        · obtain ⟨fm, rm, hl, hg⟩ := hsdQ
          exact ⟨fm, rm, (scanGens_comm_stable hsdv').trans hl, hg⟩
        · obtain ⟨fm, rm, hl, hg⟩ := hpop x hx'
          exact ⟨fm, rm,
            (scanGens_comm_stable (subset_insertNew _ _ (hpv hx'))).trans hl, hg⟩
      · intro x hx
        rcases mem_insertNew.mp hx with rfl | hx'
        · exact hsdv'
        · exact subset_insertNew _ _ (hpv hx')

theorem bfsLoop_comm_head_stable {N : Nat} {gens : List (List Nat)} {fuel : Nat}
    {sd par : Nat × Nat} {rest : List ((Nat × Nat) × (Nat × Nat))}
    {vis pop : List (Nat × Nat)} {st : CommStore} {v p : List (Nat × Nat)}
    {st' : CommStore}
    (h : bfsLoop actComm (saveComm N) gens fuel ((sd, par) :: rest) vis pop st
          = some (v, p, st')) :
    lookupAssoc sd st' = lookupAssoc sd st := by
  cases fuel with
  | zero => simp [bfsLoop] at h
  | succ fuel =>
    simp only [bfsLoop] at h
    have hsdv : sd ∈ insertNew sd vis := mem_insertNew.mpr (Or.inl rfl)
    rw [bfsLoop_comm_stable h hsdv]
    exact scanGens_comm_stable hsdv

theorem findOrbits_comm_Q {N : Nat} {gens : List (List Nat)} {fuel : Nat}
    {cands vis : List (Nat × Nat)} {orbs : List ((Nat × Nat) × List (Nat × Nat))}
    {st : CommStore} {v : List (Nat × Nat)}
    {orbs' : List ((Nat × Nat) × List (Nat × Nat))} {st' : CommStore}
    (hgens : ∀ g ∈ gens, IsPermOn N g)
    (hcand : ∀ c ∈ cands, c.1 < N ∧ c.2 < N)
    (h : findOrbits actComm (saveComm N)
          (fun st c => saveCommodityAutomorphicMap N st c c []) gens fuel
          cands vis orbs st = some (v, orbs', st'))
    (hprev : ∀ ro ∈ orbs, (∀ m ∈ ro.2, Qcomm N ro.1 m st) ∧ ro.2 ⊆ vis) :
    ∀ ro ∈ orbs', ∀ m ∈ ro.2, Qcomm N ro.1 m st' := by
  induction cands generalizing vis orbs st with
  | nil =>
    simp only [findOrbits, Option.some.injEq] at h; obtain ⟨rfl, rfl, rfl⟩ := h
    exact fun ro hro => (hprev ro hro).1
  | cons c cs ih =>
    simp only [findOrbits] at h
    split at h
    · exact ih (fun c' hc' => hcand c' (List.mem_cons_of_mem _ hc')) h hprev
    · rename_i hcv
      split at h
      · exact absurd h (by simp)
      · rename_i v₁ orb st₂ heq
        obtain ⟨hc1, hc2⟩ := hcand c (List.mem_cons_self _ _)
        have hseedQ : Qcomm N c c (saveCommodityAutomorphicMap N st c c []) :=
          Qcomm_seed
        have horbQ : ∀ m ∈ orb, Qcomm N c m st₂ := by
          refine bfsLoop_comm_Q hgens hc1 hc2 heq ?_ ?_ (by simp)
          · intro pr hpr
            have : pr = (c, c) := by simpa using hpr
            rw [this]
            exact hseedQ
          · intro x hx; cases hx
        have horbv : orb ⊆ v₁ := fun x hx =>
          (bfsLoop_visited_iff heq (by simp) x).mpr (Or.inr hx)
        refine ih (fun c' hc' => hcand c' (List.mem_cons_of_mem _ hc')) h ?_
        intro ro hro
        rcases List.mem_append.mp hro with h' | h'
        · obtain ⟨hq, hv⟩ := hprev ro h'
          refine ⟨?_, fun x hx => (bfsLoop_mono heq).1 (hv hx)⟩
          intro m hm
          obtain ⟨fm, rm, hl, hg⟩ := hq m hm
          refine ⟨fm, rm, ?_, hg⟩
          rw [bfsLoop_comm_stable heq (hv hm),
            saveCommodityAutomorphicMap_stable (fun hc => hcv (by rw [← hc]; exact hv hm))]
          exact hl
        · have : ro = (c, orb) := by simpa using h'
          subst this
          exact ⟨horbQ, horbv⟩

theorem findOrbits_comm_reps {N : Nat} {gens : List (List Nat)} {fuel : Nat}
    {cands vis : List (Nat × Nat)} {orbs : List ((Nat × Nat) × List (Nat × Nat))}
    {st : CommStore} {v : List (Nat × Nat)}
    {orbs' : List ((Nat × Nat) × List (Nat × Nat))} {st' : CommStore}
    (h : findOrbits actComm (saveComm N)
          (fun st c => saveCommodityAutomorphicMap N st c c []) gens fuel
          cands vis orbs st = some (v, orbs', st'))
    (hprev : ∀ ro ∈ orbs,
      lookupAssoc ro.1 st = some (List.range N, (List.range N).map some)
        ∧ ro.1 ∈ vis) :
    ∀ ro ∈ orbs',
      lookupAssoc ro.1 st' = some (List.range N, (List.range N).map some) := by
  induction cands generalizing vis orbs st with
  | nil =>
    simp only [findOrbits, Option.some.injEq] at h; obtain ⟨rfl, rfl, rfl⟩ := h
    exact fun ro hro => (hprev ro hro).1
  | cons c cs ih =>
    simp only [findOrbits] at h
    split at h
    · exact ih h hprev
    · rename_i hcv
      split at h
      · exact absurd h (by simp)
      · rename_i v₁ orb st₂ heq
        refine ih h ?_
        intro ro hro
        rcases List.mem_append.mp hro with h' | h'
        · obtain ⟨hq, hv⟩ := hprev ro h'
          constructor
          · rw [bfsLoop_comm_stable heq hv,
              saveCommodityAutomorphicMap_stable (fun hc => hcv (by rw [← hc]; exact hv))]
            exact hq
          · exact (bfsLoop_mono heq).1 hv
        · have : ro = (c, orb) := by simpa using h'
          subst this
          constructor
          · rw [bfsLoop_comm_head_stable heq]
            unfold saveCommodityAutomorphicMap
            rw [if_pos rfl]
            exact lookupAssoc_setAssoc_self _ _ _
          · have : c ∈ orb :=
              bfsLoop_tovisit_popped heq (c, c) (List.mem_cons_self _ _)
            exact (bfsLoop_visited_iff heq (by simp) c).mpr (Or.inr this)

theorem commodityList_closed {N : Nat} {gens : List (List Nat)} {hosts : List Nat}
    (hgens : ∀ g ∈ gens, IsPermOn N g)
    (hpres : ∀ g ∈ gens, ∀ u ∈ hosts, applyNode g u ∈ hosts) :
    ∀ g ∈ gens, ∀ c ∈ commodityList hosts, actComm g c ∈ commodityList hosts := by
  intro g hg c hc
  obtain ⟨h1, h2, hne⟩ := mem_commodityList.mp hc
  refine mem_commodityList.mpr ⟨hpres g hg _ h1, hpres g hg _ h2, ?_⟩
  intro hcon
  exact hne (applyNode_injective (hgens g hg) hcon)

/-- Application of a stored reverse map (whose entries are `Option`-valued as
built by the source's `[None]*len` initialisation) to a commodity's node
pair; `none` would correspond to Python applying a map that still contains a
`None` hole. -/
def applyPairOpt (sd : Nat × Nat) (rm : List (Option Nat)) : Option (Nat × Nat) :=
  match rm.getD sd.1 none, rm.getD sd.2 none with
  | some a, some b => some (a, b)
  | _, _ => none

/-- **C3.**  The orbit enumeration over commodities computes a partition of
the commodity set — every commodity lies in exactly one computed orbit — and
every computed orbit is closed under the generator action, with all orbit
members genuine commodities.  Hypotheses: the generators are node
permutations that map host nodes to host nodes (guaranteed by the colored
automorphism discovery), and the run completed (`some`). -/
theorem claim_C3_commodity_orbit_partition
    {N fuel : Nat} {gens : List (List Nat)} {hosts : List Nat}
    {v : List (Nat × Nat)} {orbs : List ((Nat × Nat) × List (Nat × Nat))}
    {st : CommStore}
    (hgens : ∀ g ∈ gens, IsPermOn N g)
    (hpres : ∀ g ∈ gens, ∀ u ∈ hosts, applyNode g u ∈ hosts)
    (hrun : findRepresentativeCommodities N gens hosts fuel = some (v, orbs, st)) :
    (∀ c ∈ commodityList hosts, orbitCount c orbs = 1)
    ∧ (∀ ro ∈ orbs, ∀ c ∈ ro.2, ∀ g ∈ gens, applyPair c g ∈ ro.2)
    ∧ (∀ ro ∈ orbs, ∀ c ∈ ro.2, c ∈ commodityList hosts) := by
  unfold findRepresentativeCommodities at hrun
  have hclosedD := commodityList_closed hgens hpres
  refine ⟨?_, ?_, ?_⟩
  · intro c hc
    have hcv : c ∈ v := findOrbits_coverage hrun c hc
    have hex : ∃ ro ∈ orbs, c ∈ ro.2 := by
      rcases findOrbits_visited_spec hrun c hcv with h' | h'
      · cases h'
      · exact h'
    have hpos : 0 < orbitCount c orbs := by
      rw [orbitCount, List.countP_pos_iff]
      obtain ⟨ro, hro, hcr⟩ := hex
      exact ⟨ro, hro, by simpa using hcr⟩
    have hle : orbitCount c orbs ≤ 1 :=
      findOrbits_disjoint hrun (fun ro hro => by cases hro)
        (fun x => by simp [orbitCount]) c
    omega
  · intro ro hro c hc g hg
    exact findOrbits_closure hrun
      (fun g hg => applyPair_injective (hgens g hg))
      (fun x hx => by cases hx) (fun ro hro => by cases hro) ro hro c hc g hg
  · intro ro hro c hc
    rcases findOrbits_domain hrun hclosedD (fun x hx => hx) ro hro with h' | h'
    · cases h'
    · exact h'.2 hc

/-- **C3 witness**: the 2-node fully symmetric topology (nodes 0,1, swap
generator).  Both commodities fall in one orbit, generator-closed. -/
theorem claim_C3_commodity_orbit_partition_witness :
    (∀ g ∈ [[1, 0]], IsPermOn 2 g)
    ∧ (∀ g ∈ [[1, 0]], ∀ u ∈ [0, 1], applyNode g u ∈ [0, 1])
    ∧ (findRepresentativeCommodities 2 [[1, 0]] [0, 1] 10
        = some ([(0, 1), (1, 0)], [((0, 1), [(0, 1), (1, 0)])],
            [((0, 1), ([0, 1], [some 0, some 1])),
             ((1, 0), ([1, 0], [some 1, some 0]))]))
    ∧ (∀ c ∈ commodityList [0, 1],
        orbitCount c [((0, 1), [(0, 1), (1, 0)])] = 1) :=
  ⟨by decide, by decide, by rfl,
    (@claim_C3_commodity_orbit_partition 2 10 [[1, 0]] [0, 1]
        [(0, 1), (1, 0)] [((0, 1), [(0, 1), (1, 0)])]
        [((0, 1), ([0, 1], [some 0, some 1])),
         ((1, 0), ([1, 0], [some 1, some 0]))]
        (by decide) (by decide) rfl).1⟩

/-- **C4.**  For every commodity `m` in a computed orbit with representative
`r`: the stored forward map is a node permutation that maps `r`'s structure
coordinate-wise to `m`'s; the stored reverse map is its exact positional
inverse; applying the reverse map to `m`'s structure yields `r`'s structure;
and the representative's own stored maps are the identity permutation. -/
theorem claim_C4_commodity_map_roundtrip
    {N fuel : Nat} {gens : List (List Nat)} {hosts : List Nat}
    {v : List (Nat × Nat)} {orbs : List ((Nat × Nat) × List (Nat × Nat))}
    {st : CommStore}
    (hgens : ∀ g ∈ gens, IsPermOn N g)
    (hhosts : ∀ u ∈ hosts, u < N)
    (hpres : ∀ g ∈ gens, ∀ u ∈ hosts, applyNode g u ∈ hosts)
    (hrun : findRepresentativeCommodities N gens hosts fuel = some (v, orbs, st)) :
    ∀ ro ∈ orbs,
      lookupAssoc ro.1 st = some (List.range N, (List.range N).map some)
      ∧ ∀ m ∈ ro.2, ∃ fm rm,
          lookupAssoc m st = some (fm, rm)
          ∧ IsPermOn N fm
          ∧ applyPair ro.1 fm = m
          ∧ rm.length = N
          ∧ (∀ i, i < N → rm.getD (applyNode fm i) none = some i)
          ∧ applyPairOpt m rm = some ro.1 := by
  have hrun' := hrun
  unfold findRepresentativeCommodities at hrun'
  have hcand : ∀ c ∈ commodityList hosts, c.1 < N ∧ c.2 < N := by
    intro c hc
    obtain ⟨h1, h2, _⟩ := mem_commodityList.mp hc
    exact ⟨hhosts _ h1, hhosts _ h2⟩
  have hQ := findOrbits_comm_Q hgens hcand hrun' (fun ro hro => by cases hro)
  have hreps := findOrbits_comm_reps hrun' (fun ro hro => by cases hro)
  have hdom := findOrbits_domain hrun' (commodityList_closed hgens hpres)
    (fun x hx => hx)
  intro ro hro
  have hrdom : ro.1 ∈ commodityList hosts := by
    rcases hdom ro hro with h' | h'
    · cases h'
    · exact h'.1
  obtain ⟨hr1, hr2⟩ := hcand ro.1 hrdom
  refine ⟨hreps ro hro, ?_⟩
  intro m hm
  obtain ⟨fm, rm, hl, hperm, hfwd, hlen, hinv⟩ := hQ ro hro m hm
  refine ⟨fm, rm, hl, hperm, hfwd, hlen, hinv, ?_⟩
  have hm1 : m.1 = applyNode fm ro.1.1 := by rw [← hfwd]; rfl
  have hm2 : m.2 = applyNode fm ro.1.2 := by rw [← hfwd]; rfl
  have h1 : rm.getD m.1 none = some ro.1.1 := by
    rw [hm1]; exact hinv ro.1.1 hr1
  have h2 : rm.getD m.2 none = some ro.1.2 := by
    rw [hm2]; exact hinv ro.1.2 hr2
  rw [List.getD_eq_getElem?_getD] at h1 h2
  simp [applyPairOpt, h1, h2]

/-- **C4 witness** on the 2-node swap-symmetric topology: member `(1,0)` of
the orbit of representative `(0,1)` carries forward map `[1,0]` and reverse
map `[some 1, some 0]`, which round-trip. -/
theorem claim_C4_commodity_map_roundtrip_witness :
    (∀ g ∈ [[1, 0]], IsPermOn 2 g)
    ∧ (∀ u ∈ [0, 1], u < 2)
    ∧ (∀ g ∈ [[1, 0]], ∀ u ∈ [0, 1], applyNode g u ∈ [0, 1])
    ∧ (findRepresentativeCommodities 2 [[1, 0]] [0, 1] 10
        = some ([(0, 1), (1, 0)], [((0, 1), [(0, 1), (1, 0)])],
            [((0, 1), ([0, 1], [some 0, some 1])),
             ((1, 0), ([1, 0], [some 1, some 0]))]))
    ∧ (∀ ro ∈ [((0, 1), [(0, 1), (1, 0)])],
        lookupAssoc ro.1
            [((0, 1), ([0, 1], [some 0, some 1])),
             ((1, 0), ([1, 0], [some 1, some 0]))]
          = some (List.range 2, (List.range 2).map some)
        ∧ ∀ m ∈ ro.2, ∃ fm rm,
            lookupAssoc m
                [((0, 1), ([0, 1], [some 0, some 1])),
                 ((1, 0), ([1, 0], [some 1, some 0]))]
              = some (fm, rm)
            ∧ IsPermOn 2 fm
            ∧ applyPair ro.1 fm = m
            ∧ rm.length = 2
            ∧ (∀ i, i < 2 → rm.getD (applyNode fm i) none = some i)
            ∧ applyPairOpt m rm = some ro.1) :=
  ⟨by decide, by decide, by decide, by rfl,
    @claim_C4_commodity_map_roundtrip 2 10 [[1, 0]] [0, 1]
      [(0, 1), (1, 0)] [((0, 1), [(0, 1), (1, 0)])]
      [((0, 1), ([0, 1], [some 0, some 1])),
       ((1, 0), ([1, 0], [some 1, some 0]))]
      (by decide) (by decide) (by decide) rfl⟩

/-! ## `findRepresentativeAuxs`, `computeAuxReverseMap`, `encodeLinkConstraint` -/

/-- The generator action on auxiliary triples. -/
def actAux (g : List Nat) (a : Nat × Nat × Nat) : Nat × Nat × Nat :=
  applyTriple a g

/-- `auxindice = [(u, i, j) for u in self.HostNodes for (i, j) in self.DLinks]`,
then `auxindice.sort()`. -/
def auxIndices (hosts : List Nat) (dlinks : List (Nat × Nat)) :
    List (Nat × Nat × Nat) :=
  sortList tripleLe (hosts.flatMap (fun u => dlinks.map (fun l => (u, l.1, l.2))))

theorem mem_auxIndices {hosts : List Nat} {dlinks : List (Nat × Nat)}
    {a : Nat × Nat × Nat} :
    a ∈ auxIndices hosts dlinks ↔ a.1 ∈ hosts ∧ a.2 ∈ dlinks := by
  obtain ⟨u, i, j⟩ := a
  rw [auxIndices, mem_sortList]
  simp only [List.mem_flatMap, List.mem_map]
  constructor
  · rintro ⟨u', hu', l, hl, heq⟩
    obtain ⟨rfl, rfl, rfl⟩ : u' = u ∧ l.1 = i ∧ l.2 = j := by
      refine ⟨congrArg Prod.fst heq, ?_, ?_⟩
      · exact congrArg (fun p => p.2.1) heq
      · exact congrArg (fun p => p.2.2) heq
    exact ⟨hu', hl⟩
  · rintro ⟨hu, hl⟩
    exact ⟨u, hu, (i, j), hl, rfl⟩

/-- `Topology.findRepresentativeAuxs`: orbit enumeration over auxiliary
triples under the full generator set; no per-member artifact is stored. -/
def findRepresentativeAuxs (gens : List (List Nat)) (hosts : List Nat)
    (dlinks : List (Nat × Nat)) (fuel : Nat) :
    Option (List (Nat × Nat × Nat)
      × List ((Nat × Nat × Nat) × List (Nat × Nat × Nat)) × Unit) :=
  findOrbits actAux (fun st _ _ _ => st) (fun st _ => st) gens fuel
    (auxIndices hosts dlinks) [] [] ()

/-- The inner loop of `computeAuxReverseMap` for one representative group:
`for (n, i, j) in autauxs: if n != u: continue; auxtorep[i, j] = repaux`. -/
def auxGroupFold (u : Nat) (rep : Nat × Nat × Nat)
    (grp : List (Nat × Nat × Nat)) (m : List ((Nat × Nat) × (Nat × Nat × Nat))) :
    List ((Nat × Nat) × (Nat × Nat × Nat)) :=
  grp.foldl (fun m a => if a.1 = u then setAssoc a.2 rep m else m) m

/-- `Topology.computeAuxReverseMap` for one host `u`: iterate representative
groups and record, for every member triple at host `u`, the map
`(i, j) ↦ repaux`.  The result models the pickled `{u}_AuxToRep` dict. -/
def computeAuxReverseMap (orbs : List ((Nat × Nat × Nat) × List (Nat × Nat × Nat)))
    (u : Nat) : List ((Nat × Nat) × (Nat × Nat × Nat)) :=
  orbs.foldl (fun m ro => auxGroupFold u ro.1 ro.2 m) []

theorem auxGroupFold_lookup {u : Nat} {rep : Nat × Nat × Nat}
    {grp : List (Nat × Nat × Nat)} {m : List ((Nat × Nat) × (Nat × Nat × Nat))}
    {l : Nat × Nat} :
    lookupAssoc l (auxGroupFold u rep grp m)
      = if (u, l.1, l.2) ∈ grp then some rep else lookupAssoc l m := by
  obtain ⟨l1, l2⟩ := l
  induction grp generalizing m with
  | nil => simp [auxGroupFold]
  | cons a rest ih =>
    obtain ⟨a1, a2⟩ := a
    simp only [auxGroupFold, List.foldl_cons] at ih ⊢
    rw [ih]
    rcases Decidable.em (a1 = u ∧ a2 = (l1, l2)) with ⟨h1, h2⟩ | hno
    · subst h1
      subst h2
      rw [if_pos (List.mem_cons_self _ _)]
      rw [if_pos rfl]
      split
      · rfl
      · exact lookupAssoc_setAssoc_self _ _ _
    · have hmem : ((u, l1, l2) ∈ (a1, a2) :: rest) ↔ ((u, l1, l2) ∈ rest) := by
        simp only [List.mem_cons]
        constructor
        · rintro (heq | h)
          · exfalso
            refine hno ⟨?_, ?_⟩
            · exact (congrArg Prod.fst heq).symm
            · exact (congrArg Prod.snd heq).symm
          · exact h
        · exact Or.inr
      simp only [hmem]
      split
      · rfl
      · by_cases hau : a1 = u
        · rw [if_pos hau]
          refine lookupAssoc_setAssoc_ne _ _ ?_
          intro hc
          exact hno ⟨hau, hc.symm⟩
        · rw [if_neg hau]

theorem two_le_countP {β : Type} {l : List β} {p : β → Bool} {b1 b2 : β}
    (h1 : b1 ∈ l) (h2 : b2 ∈ l) (hne : b1 ≠ b2)
    (hp1 : p b1 = true) (hp2 : p b2 = true) :
    2 ≤ l.countP p := by
  induction l with
  | nil => cases h1
  | cons x xs ih =>
    rw [List.countP_cons]
    rcases List.mem_cons.mp h1 with rfl | h1'
    · have h2' : b2 ∈ xs := by
        rcases List.mem_cons.mp h2 with h' | h'
        · exact absurd h'.symm hne
        · exact h'
      have hx : 0 < xs.countP p :=
        List.countP_pos_iff.mpr ⟨b2, h2', hp2⟩
      rw [if_pos hp1]
      omega
    · rcases List.mem_cons.mp h2 with rfl | h2'
      · have hx : 0 < xs.countP p :=
          List.countP_pos_iff.mpr ⟨b1, h1', hp1⟩
        rw [if_pos hp2]
        omega
      · have := ih h1' h2'
        omega

theorem computeAuxReverseMap_fold_keep {u : Nat} {l : Nat × Nat}
    {orbs : List ((Nat × Nat × Nat) × List (Nat × Nat × Nat))}
    {m : List ((Nat × Nat) × (Nat × Nat × Nat))} {r : Nat × Nat × Nat}
    (hkeep : ∀ ro ∈ orbs, (u, l.1, l.2) ∈ ro.2 → ro.1 = r)
    (hm : lookupAssoc l m = some r) :
    lookupAssoc l (orbs.foldl (fun m ro => auxGroupFold u ro.1 ro.2 m) m)
      = some r := by
  induction orbs generalizing m with
  | nil => exact hm
  | cons ro rest ih =>
    simp only [List.foldl_cons]
    refine ih (fun ro' hro' => hkeep ro' (List.mem_cons_of_mem _ hro')) ?_
    rw [auxGroupFold_lookup]
    split
    · rename_i hin
      rw [hkeep ro (List.mem_cons_self _ _) hin]
    · exact hm

/-- The per-host auxiliary-to-representative lookup: if some computed orbit
contains `(u, i, j)` and every orbit containing it has representative `r`
(which orbit disjointness guarantees), the stored value is `r`. -/
theorem computeAuxReverseMap_lookup {u : Nat} {l : Nat × Nat}
    {orbs : List ((Nat × Nat × Nat) × List (Nat × Nat × Nat))}
    {r : Nat × Nat × Nat} {orb : List (Nat × Nat × Nat)}
    (hro : (r, orb) ∈ orbs) (hmem : (u, l.1, l.2) ∈ orb)
    (huniq : ∀ ro ∈ orbs, (u, l.1, l.2) ∈ ro.2 → ro.1 = r) :
    lookupAssoc l (computeAuxReverseMap orbs u) = some r := by
  unfold computeAuxReverseMap
  generalize hM : ([] : List ((Nat × Nat) × (Nat × Nat × Nat))) = m
  clear hM
  induction orbs generalizing m with
  | nil => cases hro
  | cons ro rest ih =>
    simp only [List.foldl_cons]
    by_cases hin : (u, l.1, l.2) ∈ ro.2
    · refine computeAuxReverseMap_fold_keep
        (fun ro' hro' => huniq ro' (List.mem_cons_of_mem _ hro')) ?_
      rw [auxGroupFold_lookup, if_pos hin,
        huniq ro (List.mem_cons_self _ _) hin]
    · have hro' : (r, orb) ∈ rest := by
        rcases List.mem_cons.mp hro with h' | h'
        · exfalso
          apply hin
          rw [← h']
          exact hmem
        · exact h'
      exact ih hro' (fun ro' h' => huniq ro' (List.mem_cons_of_mem _ h')) _

/-- Increment an existing key of the count dict (`count[k] += 1`); `none`
models the `KeyError` Python would raise on a missing key. -/
def incKey {κ : Type} [DecidableEq κ] (k : κ) : List (κ × Nat) → Option (List (κ × Nat))
  | [] => none
  | (k', v) :: rest =>
    if k' = k then some ((k', v + 1) :: rest)
    else (incKey k rest).map (fun r => (k', v) :: r)

/-- The count-dict keys in insertion order: for each representative auxiliary
index a `'b'` (beta) entry immediately followed by a `'g'` (gamma) entry. -/
def encodeKeys (repAuxs : List (Nat × Nat × Nat)) : List (Char × (Nat × Nat × Nat)) :=
  repAuxs.flatMap (fun a => [('b', a), ('g', a)])

/-- `count = dict()` initialisation loop of `encodeLinkConstraint`. -/
def encodeInit (repAuxs : List (Nat × Nat × Nat)) :
    List ((Char × (Nat × Nat × Nat)) × Nat) :=
  repAuxs.flatMap (fun a => [(('b', a), 0), (('g', a), 0)])

/-- `Topology.encodeLinkConstraint`: initialise a zero count per
(`'b'`/`'g'`, representative auxiliary) key, then for every host look up the
link's auxiliary representative and bump both the `'b'` and `'g'` entries;
the signature is the tuple of dict values in insertion order.  `none` models
a `KeyError` (missing `auxtorep` key or count key). -/
def encodeLinkConstraint (repAuxs : List (Nat × Nat × Nat))
    (auxToRep : Nat → List ((Nat × Nat) × (Nat × Nat × Nat)))
    (hosts : List Nat) (link : Nat × Nat) : Option (List Nat) :=
  Option.map (List.map Prod.snd)
    (hosts.foldlM (fun cnt u =>
      match lookupAssoc link (auxToRep u) with
      | some auxidx => (incKey (('b', auxidx)) cnt).bind (incKey (('g', auxidx)))
      | none => none) (encodeInit repAuxs))

/-- Number of hosts whose auxiliary class for `link` is `a`. -/
def hostCount (auxToRep : Nat → List ((Nat × Nat) × (Nat × Nat × Nat)))
    (hosts : List Nat) (link : Nat × Nat) (a : Nat × Nat × Nat) : Nat :=
  hosts.countP (fun u => decide (lookupAssoc link (auxToRep u) = some a))

theorem encodeInit_eq (repAuxs : List (Nat × Nat × Nat)) :
    encodeInit repAuxs = (encodeKeys repAuxs).map (fun k => (k, 0)) := by
  induction repAuxs with
  | nil => rfl
  | cons a rest ih =>
    simp only [encodeInit, encodeKeys] at ih ⊢
    simp [List.flatMap_cons, ih]

theorem mem_encodeKeys {repAuxs : List (Nat × Nat × Nat)}
    {k : Char × (Nat × Nat × Nat)} :
    k ∈ encodeKeys repAuxs ↔ (k.1 = 'b' ∨ k.1 = 'g') ∧ k.2 ∈ repAuxs := by
  obtain ⟨t, a⟩ := k
  simp only [encodeKeys, List.mem_flatMap, List.mem_cons, List.mem_singleton]
  constructor
  · rintro ⟨a', ha', (heq | heq | hf)⟩
    · obtain ⟨rfl, rfl⟩ := Prod.mk.injEq .. ▸ heq
      exact ⟨Or.inl rfl, ha'⟩
    · obtain ⟨rfl, rfl⟩ := Prod.mk.injEq .. ▸ heq
      exact ⟨Or.inr rfl, ha'⟩
    · cases hf
  · rintro ⟨(rfl | rfl), ha⟩
    · exact ⟨a, ha, Or.inl rfl⟩
    · exact ⟨a, ha, Or.inr (Or.inl rfl)⟩

theorem encodeKeys_nodup {repAuxs : List (Nat × Nat × Nat)}
    (hnd : repAuxs.Nodup) : (encodeKeys repAuxs).Nodup := by
  induction repAuxs with
  | nil => exact List.nodup_nil
  | cons a rest ih =>
    obtain ⟨hna, hnd'⟩ := List.nodup_cons.mp hnd
    have hih := ih hnd'
    simp only [encodeKeys, List.flatMap_cons] at *
    refine List.Nodup.append ?_ hih ?_
    · simp
    · intro k hk1 hk2
      rcases List.mem_cons.mp hk1 with rfl | hk1'
      · exact hna ((mem_encodeKeys.mp hk2).2)
      · have : k = ('g', a) := by simpa using hk1'
        subst this
        exact hna ((mem_encodeKeys.mp hk2).2)

theorem incKey_map {κ : Type} [DecidableEq κ] {keys : List κ} {f : κ → Nat}
    {k0 : κ} (hnd : keys.Nodup) (hk : k0 ∈ keys) :
    incKey k0 (keys.map (fun k => (k, f k)))
      = some (keys.map (fun k => (k, if k = k0 then f k + 1 else f k))) := by
  induction keys with
  | nil => cases hk
  | cons k ks ih =>
    obtain ⟨hnk, hnd'⟩ := List.nodup_cons.mp hnd
    simp only [List.map_cons, incKey]
    by_cases hkk : k = k0
    · subst hkk
      rw [if_pos rfl, if_pos rfl]
      have : ks.map (fun k' => (k', if k' = k then f k' + 1 else f k'))
          = ks.map (fun k' => (k', f k')) := by
        refine List.map_congr_left ?_
        intro k' hk'
        rw [if_neg (fun hc => hnk (by rw [← hc]; exact hk'))]
      rw [this]
    · rw [if_neg hkk, if_neg hkk]
      have hk' : k0 ∈ ks := by
        rcases List.mem_cons.mp hk with h' | h'
        · exact absurd h'.symm hkk
        · exact h'
      rw [ih hnd' hk']
      rfl

theorem encode_fold {repAuxs : List (Nat × Nat × Nat)}
    {auxToRep : Nat → List ((Nat × Nat) × (Nat × Nat × Nat))}
    {hosts : List Nat} {link : Nat × Nat} (f : Char × (Nat × Nat × Nat) → Nat)
    (hnd : (encodeKeys repAuxs).Nodup)
    (htot : ∀ u ∈ hosts, ∃ a ∈ repAuxs, lookupAssoc link (auxToRep u) = some a) :
    hosts.foldlM (fun cnt u =>
        match lookupAssoc link (auxToRep u) with
        | some auxidx => (incKey (('b', auxidx)) cnt).bind (incKey (('g', auxidx)))
        | none => none) ((encodeKeys repAuxs).map (fun k => (k, f k)))
      = some ((encodeKeys repAuxs).map
          (fun k => (k, f k + hostCount auxToRep hosts link k.2))) := by
  induction hosts generalizing f with
  | nil =>
    simp only [List.foldlM_nil, hostCount, List.countP_nil, Nat.add_zero]
    rfl
  | cons u rest ih =>
    obtain ⟨a0, ha0, hl0⟩ := htot u (List.mem_cons_self _ _)
    have hb : ('b', a0) ∈ encodeKeys repAuxs :=
      mem_encodeKeys.mpr ⟨Or.inl rfl, ha0⟩
    have hg : ('g', a0) ∈ encodeKeys repAuxs :=
      mem_encodeKeys.mpr ⟨Or.inr rfl, ha0⟩
    simp only [List.foldlM_cons, hl0]
    rw [incKey_map hnd hb]
    simp only [Option.bind_eq_bind, Option.some_bind]
    rw [incKey_map hnd hg]
    simp only [Option.bind_eq_bind, Option.some_bind]
    rw [ih _ (fun u' hu' => htot u' (List.mem_cons_of_mem _ hu'))]
    refine congrArg some (List.map_congr_left ?_)
    intro k hk
    obtain ⟨htag, hka⟩ := mem_encodeKeys.mp hk
    obtain ⟨t, a⟩ := k
    have hcons : hostCount auxToRep (u :: rest) link a
        = hostCount auxToRep rest link a + (if a0 = a then 1 else 0) := by
      rw [hostCount, hostCount, List.countP_cons]
      congr 1
      rw [hl0]
      by_cases haa : a0 = a
      · subst haa
        simp
      · simp only [Option.some.injEq]
        simp [haa]
    simp only [Prod.mk.injEq, true_and]
    rw [hcons]
    rcases htag with rfl | rfl
    · have hng : ((('b', a) : Char × (Nat × Nat × Nat)) = ('g', a0)) ↔ False := by
        simp
      by_cases haa : a = a0
      · subst haa
        simp only [hng, if_false, Prod.mk.injEq, if_pos rfl]
        simp
        omega
      · simp only [hng, if_false, Prod.mk.injEq]
        simp only [haa, and_false, if_false]
        have : (a0 = a) ↔ False := by
          constructor
          · intro h; exact haa h.symm
          · intro h; cases h
        simp [this]
    · have hnb : ((('g', a) : Char × (Nat × Nat × Nat)) = ('b', a0)) ↔ False := by
        simp
      by_cases haa : a = a0
      · subst haa
        simp only [hnb, if_false, Prod.mk.injEq, if_pos rfl]
        simp
        omega
      · simp only [hnb, if_false, Prod.mk.injEq]
        simp only [haa, and_false, if_false]
        have : (a0 = a) ↔ False := by
          constructor
          · intro h; exact haa h.symm
          · intro h; cases h
        simp [this]

/-- Closed form of `encodeLinkConstraint`: the values tuple lists, per
representative auxiliary in order, the `'b'` and `'g'` counts, each equal to
the number of hosts whose auxiliary class for the link is that
representative. -/
theorem encodeLinkConstraint_closed {repAuxs : List (Nat × Nat × Nat)}
    {auxToRep : Nat → List ((Nat × Nat) × (Nat × Nat × Nat))}
    {hosts : List Nat} {link : Nat × Nat}
    (hnd : repAuxs.Nodup)
    (htot : ∀ u ∈ hosts, ∃ a ∈ repAuxs, lookupAssoc link (auxToRep u) = some a) :
    encodeLinkConstraint repAuxs auxToRep hosts link
      = some ((encodeKeys repAuxs).map
          (fun k => hostCount auxToRep hosts link k.2)) := by
  unfold encodeLinkConstraint
  rw [encodeInit_eq, encode_fold (fun _ => 0) (encodeKeys_nodup hnd) htot]
  simp [List.map_map, Function.comp]

theorem encodeKeys_map_count (repAuxs : List (Nat × Nat × Nat))
    (c : (Nat × Nat × Nat) → Nat) :
    (encodeKeys repAuxs).map (fun k => c k.2)
      = repAuxs.flatMap (fun a => [c a, c a]) := by
  induction repAuxs with
  | nil => rfl
  | cons a rest ih =>
    simp only [encodeKeys, List.flatMap_cons, List.map_append] at *
    rw [ih]
    rfl

theorem flatMap_pair_eq_iff {reps : List (Nat × Nat × Nat)}
    {c1 c2 : (Nat × Nat × Nat) → Nat} :
    reps.flatMap (fun a => [c1 a, c1 a]) = reps.flatMap (fun a => [c2 a, c2 a])
      ↔ ∀ a ∈ reps, c1 a = c2 a := by
  induction reps with
  | nil => simp
  | cons a rest ih =>
    simp only [List.flatMap_cons, List.cons_append, List.nil_append,
      List.cons.injEq]
    constructor
    · rintro ⟨h1, _, h3⟩
      intro a' ha'
      rcases List.mem_cons.mp ha' with rfl | ha''
      · exact h1
      · exact ih.mp h3 a' ha''
    · intro h
      have h1 := h a (List.mem_cons_self _ _)
      exact ⟨h1, h1, ih.mpr (fun a' ha' => h a' (List.mem_cons_of_mem _ ha'))⟩

/-- Representatives of distinct computed orbits are distinct (each new seed
is unvisited while all previous representatives are visited). -/
theorem findOrbits_reps_nodup {α γ σ : Type} [DecidableEq α]
    {act : γ → α → α} {save : σ → α → α → γ → σ} {saveSeed : σ → α → σ}
    {gens : List γ} {fuel : Nat} {cands vis : List α}
    {orbs : List (α × List α)} {st : σ} {v : List α}
    {orbs' : List (α × List α)} {st' : σ}
    (h : findOrbits act save saveSeed gens fuel cands vis orbs st
          = some (v, orbs', st'))
    (hprev : (orbs.map (fun ro => ro.1)).Nodup)
    (hpv : ∀ ro ∈ orbs, ro.1 ∈ vis) :
    (orbs'.map (fun ro => ro.1)).Nodup := by
  induction cands generalizing vis orbs st with
  | nil =>
    simp only [findOrbits, Option.some.injEq] at h; obtain ⟨rfl, rfl, rfl⟩ := h
    exact hprev
  | cons c cs ih =>
    simp only [findOrbits] at h
    split at h
    · exact ih h hprev hpv
    · rename_i hcv
      split at h
      · exact absurd h (by simp)
      · rename_i v₁ orb st₁ heq
        refine ih h ?_ ?_
        · rw [List.map_append]
          simp only [List.map_cons, List.map_nil]
          rw [List.nodup_append]
          refine ⟨hprev, List.nodup_singleton _, ?_⟩
          intro r hr hrc
          have : r = c := by simpa using hrc
          subst this
          obtain ⟨ro, hro, hro1⟩ := List.mem_map.mp hr
          exact hcv (hro1 ▸ hpv ro hro)
        · intro ro hro
          rcases List.mem_append.mp hro with h' | h'
          · exact (bfsLoop_mono heq).1 (hpv ro h')
          · have : ro = (c, orb) := by simpa using h'
            subst this
            have hc1 : c ∈ orb :=
              bfsLoop_tovisit_popped heq (c, c) (List.mem_cons_self _ _)
            exact (bfsLoop_visited_iff heq (by simp) c).mpr (Or.inr hc1)

/-- Orbit disjointness in functional form: if at most one computed orbit
contains `x` and the orbit of `r` is one of them, every orbit containing `x`
has representative `r`. -/
theorem orbitCount_le_one_uniq {α : Type} [DecidableEq α]
    {orbs : List (α × List α)} {x : α}
    (hcnt : orbitCount x orbs ≤ 1) {r : α} {orb : List α}
    (hro : (r, orb) ∈ orbs) (hm : x ∈ orb) :
    ∀ ro ∈ orbs, x ∈ ro.2 → ro.1 = r := by
  intro ro hro2 hm2
  by_cases heq : ro = (r, orb)
  · rw [heq]
  · exfalso
    have h2 := two_le_countP (p := fun ro => decide (x ∈ ro.2)) hro2 hro heq
      (by simpa using hm2) (by simpa using hm)
    unfold orbitCount at hcnt
    omega

/-- The image of the (duplicate-free) host list under a generator that
preserves hosts is a permutation of the host list. -/
theorem hosts_map_perm {g : List Nat} {hosts : List Nat} (hnd : hosts.Nodup)
    (hinj : Function.Injective (applyNode g))
    (hpres : ∀ u ∈ hosts, applyNode g u ∈ hosts) :
    List.Perm (hosts.map (applyNode g)) hosts := by
  have h1 : (hosts.map (applyNode g)).Nodup := hnd.map hinj
  have h2 : hosts.map (applyNode g) ⊆ hosts := by
    intro x hx
    obtain ⟨y, hy, rfl⟩ := List.mem_map.mp hx
    exact hpres y hy
  exact (List.subperm_of_subset h1 h2).perm_of_length_le
    (le_of_eq (List.length_map _ _).symm)

theorem auxRun_cover {gens : List (List Nat)} {hosts : List Nat}
    {dlinks : List (Nat × Nat)} {fuel : Nat} {v : List (Nat × Nat × Nat)}
    {orbs : List ((Nat × Nat × Nat) × List (Nat × Nat × Nat))} {u0 : Unit}
    (hrun : findRepresentativeAuxs gens hosts dlinks fuel = some (v, orbs, u0)) :
    ∀ u ∈ hosts, ∀ l ∈ dlinks,
      ∃ r orb, (r, orb) ∈ orbs ∧ (u, l.1, l.2) ∈ orb := by
  unfold findRepresentativeAuxs at hrun
  intro u hu l hl
  have hmem : (u, l.1, l.2) ∈ auxIndices hosts dlinks :=
    mem_auxIndices.mpr ⟨hu, hl⟩
  have hcv : (u, l.1, l.2) ∈ v := findOrbits_coverage hrun _ hmem
  rcases findOrbits_visited_spec hrun _ hcv with h' | ⟨ro, hro, hx⟩
  · cases h'
  · exact ⟨ro.1, ro.2, by simpa using hro, hx⟩

theorem auxRun_disjoint {gens : List (List Nat)} {hosts : List Nat}
    {dlinks : List (Nat × Nat)} {fuel : Nat} {v : List (Nat × Nat × Nat)}
    {orbs : List ((Nat × Nat × Nat) × List (Nat × Nat × Nat))} {u0 : Unit}
    (hrun : findRepresentativeAuxs gens hosts dlinks fuel = some (v, orbs, u0)) :
    ∀ x, orbitCount x orbs ≤ 1 := by
  unfold findRepresentativeAuxs at hrun
  exact findOrbits_disjoint hrun (fun ro hro => by cases hro)
    (fun x => by simp [orbitCount])

/-- **C9.**  After `computeAuxReverseMap` runs, the per-host
auxiliary-to-representative map is total: for every host `u` and every
directed link `(i, j)` the stored dict contains the key `(i, j)` and its
value is a member of the representative-auxiliary set; consequently the
unguarded `auxtorep[link]` lookups — in particular those performed by
`encodeLinkConstraint`, whose failures we model as `none` — never fail. -/
theorem claim_C9_aux_reverse_map_total
    {gens : List (List Nat)} {hosts : List Nat} {dlinks : List (Nat × Nat)}
    {fuel : Nat} {v : List (Nat × Nat × Nat)}
    {orbs : List ((Nat × Nat × Nat) × List (Nat × Nat × Nat))} {u0 : Unit}
    (hrun : findRepresentativeAuxs gens hosts dlinks fuel = some (v, orbs, u0)) :
    (∀ u ∈ hosts, ∀ l ∈ dlinks, ∃ r,
        lookupAssoc l (computeAuxReverseMap orbs u) = some r
          ∧ r ∈ orbs.map (fun ro => ro.1))
    ∧ (∀ l ∈ dlinks,
        encodeLinkConstraint (orbs.map (fun ro => ro.1))
          (computeAuxReverseMap orbs) hosts l ≠ none) := by
  have hcover := auxRun_cover hrun
  have hdisj := auxRun_disjoint hrun
  have htotal : ∀ u ∈ hosts, ∀ l ∈ dlinks, ∃ r,
      lookupAssoc l (computeAuxReverseMap orbs u) = some r
        ∧ r ∈ orbs.map (fun ro => ro.1) := by
    intro u hu l hl
    obtain ⟨r, orb, hro, hm⟩ := hcover u hu l hl
    refine ⟨r, computeAuxReverseMap_lookup hro hm
      (orbitCount_le_one_uniq (hdisj _) hro hm), ?_⟩
    exact List.mem_map.mpr ⟨(r, orb), hro, rfl⟩
  refine ⟨htotal, ?_⟩
  intro l hl
  have hnd : (orbs.map (fun ro => ro.1)).Nodup := by
    unfold findRepresentativeAuxs at hrun
    exact findOrbits_reps_nodup hrun (by simp) (fun ro hro => by cases hro)
  have htot' : ∀ u ∈ hosts, ∃ a ∈ orbs.map (fun ro => ro.1),
      lookupAssoc l (computeAuxReverseMap orbs u) = some a := by
    intro u hu
    obtain ⟨r, hr, hrm⟩ := htotal u hu l hl
    exact ⟨r, hrm, hr⟩
  rw [encodeLinkConstraint_closed hnd htot']
  simp

/-- **C9 witness** on the 2-node swap-symmetric topology: both per-host maps
are total over the two directed links and `encodeLinkConstraint` succeeds. -/
theorem claim_C9_aux_reverse_map_total_witness :
    (findRepresentativeAuxs [[1, 0]] [0, 1] [(0, 1), (1, 0)] 20
      = some ([(0, 0, 1), (1, 1, 0), (0, 1, 0), (1, 0, 1)],
          [((0, 0, 1), [(0, 0, 1), (1, 1, 0)]),
           ((0, 1, 0), [(0, 1, 0), (1, 0, 1)])], ()))
    ∧ ((∀ u ∈ [0, 1], ∀ l ∈ [(0, 1), (1, 0)], ∃ r,
        lookupAssoc l (computeAuxReverseMap
          [((0, 0, 1), [(0, 0, 1), (1, 1, 0)]),
           ((0, 1, 0), [(0, 1, 0), (1, 0, 1)])] u) = some r
          ∧ r ∈ [((0, 0, 1), [(0, 0, 1), (1, 1, 0)]),
                 ((0, 1, 0), [(0, 1, 0), (1, 0, 1)])].map (fun ro => ro.1))
      ∧ (∀ l ∈ [(0, 1), (1, 0)],
          encodeLinkConstraint
            ([((0, 0, 1), [(0, 0, 1), (1, 1, 0)]),
              ((0, 1, 0), [(0, 1, 0), (1, 0, 1)])].map (fun ro => ro.1))
            (computeAuxReverseMap
              [((0, 0, 1), [(0, 0, 1), (1, 1, 0)]),
               ((0, 1, 0), [(0, 1, 0), (1, 0, 1)])]) [0, 1] l ≠ none)) :=
  ⟨by rfl,
    @claim_C9_aux_reverse_map_total [[1, 0]] [0, 1] [(0, 1), (1, 0)] 20
      [(0, 0, 1), (1, 1, 0), (0, 1, 0), (1, 0, 1)]
      [((0, 0, 1), [(0, 0, 1), (1, 1, 0)]),
       ((0, 1, 0), [(0, 1, 0), (1, 0, 1)])] () rfl⟩

/-- Closed form of the link-constraint signature over a completed auxiliary
orbit run: per representative auxiliary in order, the `'b'` and `'g'` counts,
both equal to the number of hosts in that auxiliary class. -/
theorem auxRun_encode_closed {gens : List (List Nat)} {hosts : List Nat}
    {dlinks : List (Nat × Nat)} {fuel : Nat} {v : List (Nat × Nat × Nat)}
    {orbs : List ((Nat × Nat × Nat) × List (Nat × Nat × Nat))} {u0 : Unit}
    (hrun : findRepresentativeAuxs gens hosts dlinks fuel = some (v, orbs, u0))
    {l : Nat × Nat} (hl : l ∈ dlinks) :
    encodeLinkConstraint (orbs.map (fun ro => ro.1))
        (computeAuxReverseMap orbs) hosts l
      = some ((orbs.map (fun ro => ro.1)).flatMap
          (fun a => [hostCount (computeAuxReverseMap orbs) hosts l a,
                     hostCount (computeAuxReverseMap orbs) hosts l a])) := by
  have hcover := auxRun_cover hrun
  have hdisj := auxRun_disjoint hrun
  have hnd : (orbs.map (fun ro => ro.1)).Nodup := by
    unfold findRepresentativeAuxs at hrun
    exact findOrbits_reps_nodup hrun (by simp) (fun ro hro => by cases hro)
  have htot' : ∀ u ∈ hosts, ∃ a ∈ orbs.map (fun ro => ro.1),
      lookupAssoc l (computeAuxReverseMap orbs u) = some a := by
    intro u hu
    obtain ⟨r, orb, hro, hm⟩ := hcover u hu l hl
    exact ⟨r, List.mem_map.mpr ⟨(r, orb), hro, rfl⟩,
      computeAuxReverseMap_lookup hro hm
        (orbitCount_le_one_uniq (hdisj _) hro hm)⟩
  rw [encodeLinkConstraint_closed hnd htot', encodeKeys_map_count]

/-- **C10.**  The link-constraint signature interleaves, per representative
auxiliary index, a `'b'` entry and a `'g'` entry holding the *same* count
(the number of hosts in that auxiliary class), so the two halves of the
signature are always equal; and two links have equal signatures exactly when
their per-host auxiliary-class membership counts agree on every
representative. -/
theorem claim_C10_signature_halves
    {gens : List (List Nat)} {hosts : List Nat} {dlinks : List (Nat × Nat)}
    {fuel : Nat} {v : List (Nat × Nat × Nat)}
    {orbs : List ((Nat × Nat × Nat) × List (Nat × Nat × Nat))} {u0 : Unit}
    (hrun : findRepresentativeAuxs gens hosts dlinks fuel = some (v, orbs, u0))
    {l l' : Nat × Nat} (hl : l ∈ dlinks) (hl' : l' ∈ dlinks) :
    (encodeLinkConstraint (orbs.map (fun ro => ro.1))
        (computeAuxReverseMap orbs) hosts l
      = some ((orbs.map (fun ro => ro.1)).flatMap
          (fun a => [hostCount (computeAuxReverseMap orbs) hosts l a,
                     hostCount (computeAuxReverseMap orbs) hosts l a])))
    ∧ (encodeLinkConstraint (orbs.map (fun ro => ro.1))
          (computeAuxReverseMap orbs) hosts l
        = encodeLinkConstraint (orbs.map (fun ro => ro.1))
            (computeAuxReverseMap orbs) hosts l'
      ↔ ∀ a ∈ orbs.map (fun ro => ro.1),
          hostCount (computeAuxReverseMap orbs) hosts l a
            = hostCount (computeAuxReverseMap orbs) hosts l' a) := by
  refine ⟨auxRun_encode_closed hrun hl, ?_⟩
  rw [auxRun_encode_closed hrun hl, auxRun_encode_closed hrun hl']
  constructor
  · intro h
    exact flatMap_pair_eq_iff.mp (Option.some.injEq .. ▸ h)
  · intro h
    exact congrArg some (flatMap_pair_eq_iff.mpr h)

/-- **C10 witness** on the 2-node swap-symmetric topology, at the two
directed links. -/
theorem claim_C10_signature_halves_witness :
    (findRepresentativeAuxs [[1, 0]] [0, 1] [(0, 1), (1, 0)] 20
      = some ([(0, 0, 1), (1, 1, 0), (0, 1, 0), (1, 0, 1)],
          [((0, 0, 1), [(0, 0, 1), (1, 1, 0)]),
           ((0, 1, 0), [(0, 1, 0), (1, 0, 1)])], ()))
    ∧ ((0, 1) ∈ [(0, 1), (1, 0)])
    ∧ ((encodeLinkConstraint
          ([((0, 0, 1), [(0, 0, 1), (1, 1, 0)]),
            ((0, 1, 0), [(0, 1, 0), (1, 0, 1)])].map (fun ro => ro.1))
          (computeAuxReverseMap
            [((0, 0, 1), [(0, 0, 1), (1, 1, 0)]),
             ((0, 1, 0), [(0, 1, 0), (1, 0, 1)])]) [0, 1] (0, 1)
        = some (([((0, 0, 1), [(0, 0, 1), (1, 1, 0)]),
                  ((0, 1, 0), [(0, 1, 0), (1, 0, 1)])].map (fun ro => ro.1)).flatMap
            (fun a => [hostCount (computeAuxReverseMap
                [((0, 0, 1), [(0, 0, 1), (1, 1, 0)]),
                 ((0, 1, 0), [(0, 1, 0), (1, 0, 1)])]) [0, 1] (0, 1) a,
              hostCount (computeAuxReverseMap
                [((0, 0, 1), [(0, 0, 1), (1, 1, 0)]),
                 ((0, 1, 0), [(0, 1, 0), (1, 0, 1)])]) [0, 1] (0, 1) a]))))
  :=
  ⟨by rfl, by decide,
    (@claim_C10_signature_halves [[1, 0]] [0, 1] [(0, 1), (1, 0)] 20
      [(0, 0, 1), (1, 1, 0), (0, 1, 0), (1, 0, 1)]
      [((0, 0, 1), [(0, 0, 1), (1, 1, 0)]),
       ((0, 1, 0), [(0, 1, 0), (1, 0, 1)])] () rfl
      (0, 1) (1, 0) (by decide) (by decide)).1⟩

/-- **C5.**  Directed links in the same automorphism orbit — related by the
equivalence generated by single-generator application — receive identical
count-signatures from `encodeLinkConstraint`: the signature partition is at
least as coarse as the orbit partition. -/
theorem claim_C5_signature_orbit_invariant
    {N : Nat} {gens : List (List Nat)} {hosts : List Nat}
    {dlinks : List (Nat × Nat)} {fuel : Nat} {v : List (Nat × Nat × Nat)}
    {orbs : List ((Nat × Nat × Nat) × List (Nat × Nat × Nat))} {u0 : Unit}
    (hgens : ∀ g ∈ gens, IsPermOn N g)
    (hhnd : hosts.Nodup)
    (hpresH : ∀ g ∈ gens, ∀ u ∈ hosts, applyNode g u ∈ hosts)
    (hpresL : ∀ g ∈ gens, ∀ l ∈ dlinks, applyPair l g ∈ dlinks)
    (hrun : findRepresentativeAuxs gens hosts dlinks fuel = some (v, orbs, u0))
    {l l' : Nat × Nat} (hl : l ∈ dlinks)
    (hrel : Relation.EqvGen (fun x y => ∃ g ∈ gens, applyPair x g = y) l l') :
    encodeLinkConstraint (orbs.map (fun ro => ro.1))
        (computeAuxReverseMap orbs) hosts l
      = encodeLinkConstraint (orbs.map (fun ro => ro.1))
          (computeAuxReverseMap orbs) hosts l' := by
  have hcover := auxRun_cover hrun
  have hdisj := auxRun_disjoint hrun
  have horbcl : ∀ ro ∈ orbs, ∀ x ∈ ro.2, ∀ g ∈ gens, actAux g x ∈ ro.2 := by
    have h := hrun
    unfold findRepresentativeAuxs at h
    exact findOrbits_closure h
      (fun g hg => applyTriple_injective (hgens g hg))
      (fun x hx => by cases hx) (fun ro hro => by cases hro)
  have htrans : ∀ g ∈ gens, ∀ u ∈ hosts, ∀ l₀ ∈ dlinks,
      lookupAssoc (applyPair l₀ g) (computeAuxReverseMap orbs (applyNode g u))
        = lookupAssoc l₀ (computeAuxReverseMap orbs u) := by
    intro g hg u hu l₀ hl₀
    obtain ⟨r, orb, hro, hm⟩ := hcover u hu l₀ hl₀
    have h1 := computeAuxReverseMap_lookup hro hm
      (orbitCount_le_one_uniq (hdisj _) hro hm)
    have hm2 : (applyNode g u, (applyPair l₀ g).1, (applyPair l₀ g).2) ∈ orb := by
      have hc := horbcl (r, orb) hro _ hm g hg
      simpa [actAux, applyTriple, applyPair] using hc
    have h2 := computeAuxReverseMap_lookup hro hm2
      (orbitCount_le_one_uniq (hdisj _) hro hm2)
    rw [h1, h2]
  have hcnttrans : ∀ g ∈ gens, ∀ l₀ ∈ dlinks, ∀ a,
      hostCount (computeAuxReverseMap orbs) hosts (applyPair l₀ g) a
        = hostCount (computeAuxReverseMap orbs) hosts l₀ a := by
    intro g hg l₀ hl₀ a
    unfold hostCount
    have hperm := hosts_map_perm hhnd (applyNode_injective (hgens g hg))
      (hpresH g hg)
    rw [← List.Perm.countP_eq _ hperm, List.countP_map]
    refine List.countP_congr ?_
    intro u hu
    simp only [Function.comp_apply, decide_eq_true_eq]
    rw [htrans g hg u hu l₀ hl₀]
  have main : ∀ x y,
      Relation.EqvGen (fun x y => ∃ g ∈ gens, applyPair x g = y) x y →
      (x ∈ dlinks ↔ y ∈ dlinks) ∧ (x ∈ dlinks →
        encodeLinkConstraint (orbs.map (fun ro => ro.1))
            (computeAuxReverseMap orbs) hosts x
          = encodeLinkConstraint (orbs.map (fun ro => ro.1))
              (computeAuxReverseMap orbs) hosts y) := by
    intro x y hxy
    induction hxy with
    | rel x y hr =>
      obtain ⟨g, hg, rfl⟩ := hr
      constructor
      · constructor
        · exact fun hx => hpresL g hg x hx
        · intro hy
          exact closed_list_preimage (applyPair_injective (hgens g hg))
            (fun z hz => hpresL g hg z hz) hy
      · intro hx
        rw [auxRun_encode_closed hrun hx,
          auxRun_encode_closed hrun (hpresL g hg x hx)]
        exact congrArg some
          (flatMap_pair_eq_iff.mpr (fun a _ => (hcnttrans g hg x hx a).symm))
    | refl x => exact ⟨Iff.rfl, fun _ => rfl⟩
    | symm x y hxy ih => exact ⟨ih.1.symm, fun hy => (ih.2 (ih.1.mpr hy)).symm⟩
    | trans x y z hxy hyz ih1 ih2 =>
      exact ⟨ih1.1.trans ih2.1,
        fun hx => (ih1.2 hx).trans (ih2.2 (ih1.1.mp hx))⟩
  exact (main l l' hrel).2 hl

/-- **C5 witness** on the 2-node swap-symmetric topology: the two directed
links are swapped by the generator and indeed share a signature. -/
theorem claim_C5_signature_orbit_invariant_witness :
    (∀ g ∈ [[1, 0]], IsPermOn 2 g)
    ∧ ([0, 1] : List Nat).Nodup
    ∧ (findRepresentativeAuxs [[1, 0]] [0, 1] [(0, 1), (1, 0)] 20
      = some ([(0, 0, 1), (1, 1, 0), (0, 1, 0), (1, 0, 1)],
          [((0, 0, 1), [(0, 0, 1), (1, 1, 0)]),
           ((0, 1, 0), [(0, 1, 0), (1, 0, 1)])], ()))
    ∧ (encodeLinkConstraint
        ([((0, 0, 1), [(0, 0, 1), (1, 1, 0)]),
          ((0, 1, 0), [(0, 1, 0), (1, 0, 1)])].map (fun ro => ro.1))
        (computeAuxReverseMap
          [((0, 0, 1), [(0, 0, 1), (1, 1, 0)]),
           ((0, 1, 0), [(0, 1, 0), (1, 0, 1)])]) [0, 1] (0, 1)
      = encodeLinkConstraint
        ([((0, 0, 1), [(0, 0, 1), (1, 1, 0)]),
          ((0, 1, 0), [(0, 1, 0), (1, 0, 1)])].map (fun ro => ro.1))
        (computeAuxReverseMap
          [((0, 0, 1), [(0, 0, 1), (1, 1, 0)]),
           ((0, 1, 0), [(0, 1, 0), (1, 0, 1)])]) [0, 1] (1, 0)) :=
  ⟨by decide, by decide, by rfl,
    @claim_C5_signature_orbit_invariant 2 [[1, 0]] [0, 1] [(0, 1), (1, 0)] 20
      [(0, 0, 1), (1, 1, 0), (0, 1, 0), (1, 0, 1)]
      [((0, 0, 1), [(0, 0, 1), (1, 1, 0)]),
       ((0, 1, 0), [(0, 1, 0), (1, 0, 1)])] ()
      (by decide) (by decide) (by decide) (by decide) rfl
      (0, 1) (1, 0) (by decide)
      (Relation.EqvGen.rel _ _ ⟨[1, 0], List.mem_singleton.mpr rfl, by decide⟩)⟩

/-! ## `findRepresentativeLinkConstrs` and the parallel merge pattern -/

theorem lookupAssoc_append {κ ν : Type} [DecidableEq κ] (k : κ)
    (m m' : List (κ × ν)) :
    lookupAssoc k (m ++ m')
      = match lookupAssoc k m with
        | some v => some v
        | none => lookupAssoc k m' := by
  induction m with
  | nil => rfl
  | cons hd tl ih =>
    obtain ⟨k₀, v₀⟩ := hd
    by_cases h : k₀ = k
    · simp [lookupAssoc, h]
    · simp only [List.cons_append, lookupAssoc, if_neg h]
      exact ih

/-- One merge step of `findRepresentativeLinkConstrs`:
`if encode not in repgroups: repgroups[encode] = set(); repgroups[encode].add(link)`. -/
def addToGroup (e : List Nat) (l : Nat × Nat)
    (m : List (List Nat × List (Nat × Nat))) :
    List (List Nat × List (Nat × Nat)) :=
  match lookupAssoc e m with
  | some grp => setAssoc e (insertNew l grp) m
  | none => m ++ [(e, [l])]

/-- Merge the `(link, encode)` signature results in their completion order
`order` into the signature-keyed group dict `repgroups`; `none` models a
raised exception inside `encodeLinkConstraint`. -/
def buildRepGroups (encodeFn : (Nat × Nat) → Option (List Nat))
    (order : List (Nat × Nat)) :
    Option (List (List Nat × List (Nat × Nat))) :=
  order.foldlM (fun m l => (encodeFn l).map (fun e => addToGroup e l m)) []

/-- `Topology.findRepresentativeLinkConstrs`: pick one representative per
signature group via `links.pop()`; `set.pop` returns an unspecified element,
modelled here as the first-inserted one. -/
def findRepresentativeLinkConstrs (encodeFn : (Nat × Nat) → Option (List Nat))
    (order : List (Nat × Nat)) : Option (List (Nat × Nat)) :=
  (buildRepGroups encodeFn order).map (fun m => m.map (fun g => g.2.headD (0, 0)))

/-- The group stored under signature `e` (empty if absent). -/
def groupVal (e : List Nat) (m : List (List Nat × List (Nat × Nat))) :
    List (Nat × Nat) :=
  (lookupAssoc e m).getD []

theorem addToGroup_groupVal (e : List Nat) (l : Nat × Nat)
    (m : List (List Nat × List (Nat × Nat))) (hfresh : l ∉ groupVal e m) :
    ∀ e', groupVal e' (addToGroup e l m)
      = if e' = e then groupVal e m ++ [l] else groupVal e' m := by
  intro e'
  unfold addToGroup
  match hx : lookupAssoc e m with
  | some grp =>
    have hge : groupVal e m = grp := by rw [groupVal, hx]; rfl
    by_cases he : e' = e
    · subst he
      rw [if_pos rfl, groupVal, lookupAssoc_setAssoc_self, hge]
      unfold insertNew
      rw [if_neg (by rw [← hge]; exact hfresh)]
      rfl
    · rw [if_neg he, groupVal, groupVal, lookupAssoc_setAssoc_ne _ _ he]
  | none =>
    by_cases he : e' = e
    · subst he
      rw [if_pos rfl, groupVal, lookupAssoc_append, hx]
      simp only [lookupAssoc, if_pos rfl]
      rw [groupVal, hx]
      rfl
    · rw [if_neg he, groupVal, groupVal, lookupAssoc_append]
      match hy : lookupAssoc e' m with
      | some v => rfl
      | none =>
        simp only [lookupAssoc]
        rw [if_neg (fun hc => he hc.symm)]

theorem buildRepGroups_spec {encodeFn : (Nat × Nat) → Option (List Nat)}
    {order : List (Nat × Nat)}
    {m : List (List Nat × List (Nat × Nat))}
    (hnd : order.Nodup)
    (henc : ∀ l ∈ order, (encodeFn l).isSome)
    (hfresh : ∀ l ∈ order, ∀ e, l ∉ groupVal e m) :
    ∃ m', order.foldlM (fun m l => (encodeFn l).map (fun e => addToGroup e l m)) m
        = some m'
      ∧ ∀ e, groupVal e m'
          = groupVal e m ++ order.filter (fun l => decide (encodeFn l = some e)) := by
  induction order generalizing m with
  | nil => exact ⟨m, rfl, fun e => by simp⟩
  | cons l rest ih =>
    obtain ⟨hl, hnd'⟩ := List.nodup_cons.mp hnd
    obtain ⟨e₀, he₀⟩ := Option.isSome_iff_exists.mp (henc l (List.mem_cons_self _ _))
    have hstep := addToGroup_groupVal e₀ l m
      (hfresh l (List.mem_cons_self _ _) e₀)
    have hfresh' : ∀ l' ∈ rest, ∀ e, l' ∉ groupVal e (addToGroup e₀ l m) := by
      intro l' hl' e
      rw [hstep e]
      split
      · rw [List.mem_append]
        rintro (hc | hc)
        · exact hfresh l' (List.mem_cons_of_mem _ hl') e₀ hc
        · have : l' = l := by simpa using hc
          exact hl (this ▸ hl')
      · exact hfresh l' (List.mem_cons_of_mem _ hl') e
    obtain ⟨m', hm', hval⟩ := ih hnd'
      (fun l' hl' => henc l' (List.mem_cons_of_mem _ hl')) hfresh'
    refine ⟨m', ?_, ?_⟩
    · simp only [List.foldlM_cons, he₀, Option.map_some', Option.bind_eq_bind,
        Option.some_bind]
      exact hm'
    · intro e
      rw [hval e, hstep e, List.filter_cons]
      by_cases hee : encodeFn l = some e
      · have he2 : e₀ = e := by
          rw [he₀] at hee
          exact Option.some.injEq .. ▸ hee
        subst he2
        rw [if_pos rfl]
        simp [hee]
      · have he2 : ¬(e = e₀) := by
          intro hc
          subst hc
          exact hee he₀
        rw [if_neg he2]
        simp [hee]

/-- The contents of each signature group are exactly the links of that
signature, in completion order: group structure is independent of completion
order (as a set), though the stored order is not. -/
theorem buildRepGroups_groups {encodeFn : (Nat × Nat) → Option (List Nat)}
    {order : List (Nat × Nat)}
    (hnd : order.Nodup) (henc : ∀ l ∈ order, (encodeFn l).isSome) :
    ∃ m', buildRepGroups encodeFn order = some m'
      ∧ ∀ e, groupVal e m'
          = order.filter (fun l => decide (encodeFn l = some e)) := by
  obtain ⟨m', h1, h2⟩ := buildRepGroups_spec (m := []) hnd henc
    (fun l _ e => by simp [groupVal, lookupAssoc])
  exact ⟨m', h1, fun e => by simpa [groupVal, lookupAssoc] using h2 e⟩

/-- Merge of parallel task results keyed by the task itself
(`D[key] = value` per completed task), as in
`findRepresentativeCommodityFlowLinks`, `verifyAllLinkLoad` and
`groupSolution`. -/
def mergeByKey {κ ν : Type} [DecidableEq κ] (results : List (κ × ν)) :
    List (κ × ν) :=
  results.foldl (fun m kv => setAssoc kv.1 kv.2 m) []

theorem lookupAssoc_isSome_mem_keys {κ ν : Type} [DecidableEq κ]
    {r : List (κ × ν)} {k : κ} {v : ν}
    (h : lookupAssoc k r = some v) : k ∈ r.map Prod.fst := by
  induction r with
  | nil => cases h
  | cons kv rest ih =>
    obtain ⟨k₁, v₁⟩ := kv
    simp only [lookupAssoc] at h
    split at h
    · rename_i heq
      exact List.mem_cons.mpr (Or.inl heq.symm)
    · exact List.mem_cons_of_mem _ (ih h)

theorem foldl_setAssoc_lookup {κ ν : Type} [DecidableEq κ]
    {r : List (κ × ν)} {m : List (κ × ν)} {k : κ}
    (hnd : (r.map Prod.fst).Nodup) :
    lookupAssoc k (r.foldl (fun m kv => setAssoc kv.1 kv.2 m) m)
      = match lookupAssoc k r with
        | some v => some v
        | none => lookupAssoc k m := by
  induction r generalizing m with
  | nil => rfl
  | cons kv rest ih =>
    obtain ⟨k₀, v₀⟩ := kv
    simp only [List.map_cons, List.nodup_cons] at hnd
    obtain ⟨hk₀, hnd'⟩ := hnd
    simp only [List.foldl_cons]
    rw [ih hnd']
    by_cases hk : k₀ = k
    · subst hk
      have hnone : lookupAssoc k₀ rest = none := by
        match hx : lookupAssoc k₀ rest with
        | none => rfl
        | some v => exact absurd (lookupAssoc_isSome_mem_keys hx) hk₀
      have hR : lookupAssoc k₀ ((k₀, v₀) :: rest) = some v₀ := by
        simp [lookupAssoc]
      rw [hnone, hR, lookupAssoc_setAssoc_self]
    · have hL : lookupAssoc k ((k₀, v₀) :: rest) = lookupAssoc k rest := by
        simp only [lookupAssoc, if_neg hk]
      rw [hL]
      cases hx : lookupAssoc k rest with
      | some v => rfl
      | none => exact lookupAssoc_setAssoc_ne _ _ (fun hc => hk hc.symm)

theorem mergeByKey_lookup {κ ν : Type} [DecidableEq κ] {r : List (κ × ν)}
    (hnd : (r.map Prod.fst).Nodup) (k : κ) :
    lookupAssoc k (mergeByKey r) = lookupAssoc k r := by
  unfold mergeByKey
  rw [foldl_setAssoc_lookup hnd]
  match hx : lookupAssoc k r with
  | some v => rfl
  | none => rfl

theorem lookupAssoc_eq_some_iff {κ ν : Type} [DecidableEq κ]
    {r : List (κ × ν)} (hnd : (r.map Prod.fst).Nodup) {k : κ} {v : ν} :
    lookupAssoc k r = some v ↔ (k, v) ∈ r := by
  induction r with
  | nil => simp [lookupAssoc]
  | cons kv rest ih =>
    obtain ⟨k₀, v₀⟩ := kv
    simp only [List.map_cons, List.nodup_cons] at hnd
    obtain ⟨hk₀, hnd'⟩ := hnd
    simp only [lookupAssoc, List.mem_cons]
    by_cases hk : k₀ = k
    · subst hk
      rw [if_pos rfl]
      constructor
      · intro h
        have hv : v₀ = v := Option.some.inj h
        rw [← hv]
        exact Or.inl rfl
      · rintro (h | h)
        · have hv : v = v₀ := congrArg Prod.snd h
          rw [hv]
        · exfalso
          exact hk₀ (List.mem_map.mpr ⟨(k₀, v), h, rfl⟩)
    · rw [if_neg hk, ih hnd']
      constructor
      · exact Or.inr
      · rintro (h | h)
        · exact absurd (congrArg Prod.fst h).symm hk
        · exact h

/-- Merging parallel results under task-unique keys is deterministic: any
two completion orders of the same result set produce the same mapping. -/
theorem mergeByKey_perm_invariant {κ ν : Type} [DecidableEq κ]
    {r1 r2 : List (κ × ν)} (hperm : List.Perm r1 r2)
    (hnd : (r1.map Prod.fst).Nodup) (k : κ) :
    lookupAssoc k (mergeByKey r1) = lookupAssoc k (mergeByKey r2) := by
  have hnd2 : (r2.map Prod.fst).Nodup := (hperm.map Prod.fst).nodup_iff.mp hnd
  rw [mergeByKey_lookup hnd, mergeByKey_lookup hnd2]
  match hx : lookupAssoc k r1 with
  | some v =>
    rw [((lookupAssoc_eq_some_iff hnd2).mpr
      (hperm.mem_iff.mp ((lookupAssoc_eq_some_iff hnd).mp hx)))]
  | none =>
    match hy : lookupAssoc k r2 with
    | none => rfl
    | some v =>
      exfalso
      have := (lookupAssoc_eq_some_iff hnd).mpr
        (hperm.mem_iff.mpr ((lookupAssoc_eq_some_iff hnd2).mp hy))
      rw [hx] at this
      cases this

/-- Outcome of `Verification.verifyAllLinkLoad`: the links on which the
per-link worst-case-loading LP (`findMaxLinkLoad`) was invoked, the value
returned by the Python function (`none` models `return None`), and the
artifacts written. -/
structure VerifyOutcome where
  lpLinks : List (Nat × Nat)
  returned : Option (Rat × Rat)
  wrote : List String
deriving DecidableEq

/-- `Verification.verifyAllLinkLoad`.  If a cached `VerifiedThroughput`
exists the function prints it and returns `None` without solving any LP;
otherwise it maps `findMaxLinkLoad` over **`self.Topo.DLinks`** (all directed
links), divides by capacity, takes the maximum load, and persists the
verified throughput (the empty-`DLinks` `max()` `ValueError` is modelled as
an empty outcome). -/
def verifyAllLinkLoad (dlinks : List (Nat × Nat))
    (cachedVerifiedThroughput : Option Rat)
    (findMaxLinkLoad : (Nat × Nat) → Rat)
    (capacity : (Nat × Nat) → Rat) (intermediate : Bool) : VerifyOutcome :=
  match cachedVerifiedThroughput with
  | some _ => { lpLinks := [], returned := none, wrote := [] }
  | none =>
    let loads := dlinks.map (fun l => findMaxLinkLoad l / capacity l)
    match loads.max? with
    | some maxload =>
      { lpLinks := dlinks
        returned := some (maxload, 1 / maxload)
        wrote := [if intermediate then "VerifiedIntermediateThroughput"
                  else "VerifiedThroughput"] }
    | none => { lpLinks := dlinks, returned := none, wrote := [] }

/-- The auxiliary orbits of the 2-node swap-symmetric topology (as computed
by `findRepresentativeAuxs`, see `claim_C9_aux_reverse_map_total_witness`),
and its concrete link-signature function. -/
def auxOrbitsEx : List ((Nat × Nat × Nat) × List (Nat × Nat × Nat)) :=
  [((0, 0, 1), [(0, 0, 1), (1, 1, 0)]), ((0, 1, 0), [(0, 1, 0), (1, 0, 1)])]

def encodeEx : (Nat × Nat) → Option (List Nat) :=
  encodeLinkConstraint (auxOrbitsEx.map (fun ro => ro.1))
    (computeAuxReverseMap auxOrbitsEx) [0, 1]

theorem countP_eq_one_of_nodup {β : Type} [DecidableEq β] {l : List β} {b : β}
    (hnd : l.Nodup) (hb : b ∈ l) : l.countP (fun x => decide (x = b)) = 1 := by
  induction l with
  | nil => cases hb
  | cons x xs ih =>
    obtain ⟨hx, hnd'⟩ := List.nodup_cons.mp hnd
    rw [List.countP_cons]
    rcases List.mem_cons.mp hb with heq | hb'
    · have hz : xs.countP (fun y => decide (y = b)) = 0 := by
        rw [List.countP_eq_zero]
        intro y hy
        simp only [decide_eq_true_eq]
        rintro rfl
        exact hx (by rw [← heq]; exact hy)
      rw [hz, if_pos (by simp [heq])]
    · rw [ih hnd' hb',
        if_neg (by simp only [decide_eq_true_eq]; rintro rfl; exact hx hb')]

/-- **C1 counterexample.**  On the 2-node swap-symmetric topology the
representative link-constraint set is a single link, yet `verifyAllLinkLoad`
invokes `findMaxLinkLoad` on the other directed link as well (it maps over
`DLinks`, not `RepLinkConstrs`); and with a cached verified throughput the
function returns `None`, not the cached value. -/
theorem claim_C1_counterexample :
    findRepresentativeLinkConstrs encodeEx [(0, 1), (1, 0)] = some [(0, 1)]
    ∧ (1, 0) ∈ (verifyAllLinkLoad [(0, 1), (1, 0)] none
        (fun _ => 1) (fun _ => 1) false).lpLinks
    ∧ (1, 0) ∉ ([(0, 1)] : List (Nat × Nat))
    ∧ (verifyAllLinkLoad [(0, 1), (1, 0)] (some (1 / 2))
        (fun _ => 1) (fun _ => 1) false).returned = none := by
  refine ⟨by rfl, by decide, by decide, by rfl⟩

/-- **C1 (amended).**  The worst-case-loading LP is solved exactly once per
*directed link* — every member of `DLinks`, a superset of the representative
link-constraint set — and if a cached verified-throughput value exists,
`verifyAllLinkLoad` solves no per-link LP and returns early (returning
`None`, with the cached artifact left in place). -/
theorem claim_C1_verification_per_dlink
    {dlinks : List (Nat × Nat)} {cached : Option Rat}
    {fml cap : (Nat × Nat) → Rat} {inter : Bool} (hnd : dlinks.Nodup) :
    (cached = none →
      (verifyAllLinkLoad dlinks cached fml cap inter).lpLinks = dlinks
      ∧ ∀ l ∈ dlinks,
          (verifyAllLinkLoad dlinks cached fml cap
            inter).lpLinks.countP (fun x => decide (x = l)) = 1)
    ∧ (∀ q : Rat, cached = some q →
        (verifyAllLinkLoad dlinks cached fml cap inter).lpLinks = []
        ∧ (verifyAllLinkLoad dlinks cached fml cap inter).returned = none) := by
  constructor
  · rintro rfl
    have hlp : (verifyAllLinkLoad dlinks none fml cap inter).lpLinks = dlinks := by
      unfold verifyAllLinkLoad
      cases hx : (dlinks.map (fun l => fml l / cap l)).max? <;> simp [hx]
    refine ⟨hlp, ?_⟩
    intro l hl
    rw [hlp]
    exact countP_eq_one_of_nodup hnd hl
  · rintro q rfl
    exact ⟨rfl, rfl⟩

/-- **C1 amended witness** on the 2-node instance. -/
theorem claim_C1_verification_per_dlink_witness :
    ([(0, 1), (1, 0)] : List (Nat × Nat)).Nodup
    ∧ ((none : Option Rat) = none →
      (verifyAllLinkLoad [(0, 1), (1, 0)] none
          (fun _ => 1) (fun _ => 1) false).lpLinks = [(0, 1), (1, 0)]
      ∧ ∀ l ∈ ([(0, 1), (1, 0)] : List (Nat × Nat)),
          (verifyAllLinkLoad [(0, 1), (1, 0)] none
            (fun _ => 1) (fun _ => 1)
            false).lpLinks.countP (fun x => decide (x = l)) = 1) :=
  ⟨by decide,
    (claim_C1_verification_per_dlink (by decide)).1⟩

/-- **C7 counterexample.**  `findRepresentativeLinkConstrs` picks the
representative of each signature group with `set.pop()`: two completion
orders of the same per-link signature tasks yield *different* representative
link sets on the 2-node topology, refuting order-independence of the final
representative set. -/
theorem claim_C7_counterexample :
    findRepresentativeLinkConstrs encodeEx [(0, 1), (1, 0)] = some [(0, 1)]
    ∧ findRepresentativeLinkConstrs encodeEx [(1, 0), (0, 1)] = some [(1, 0)]
    ∧ (0, 1) ∈ ([(0, 1)] : List (Nat × Nat))
    ∧ (0, 1) ∉ ([(1, 0)] : List (Nat × Nat)) := by
  refine ⟨by rfl, by rfl, by decide, by decide⟩

/-- **C7 (amended).**  Parallel map-then-merge stages whose merge key is the
task identity (per-commodity flow-link sets, per-link verified loads,
per-node groupings) are deterministic regardless of completion order; and in
`findRepresentativeLinkConstrs` the signature-keyed *groups* are
order-independent as sets — but the representative chosen from each group by
`set.pop()` may depend on completion order (see the counterexample). -/
theorem claim_C7_merge_order_determinism
    {encodeFn : (Nat × Nat) → Option (List Nat)}
    {o1 o2 : List (Nat × Nat)} (hperm : List.Perm o1 o2) (hnd : o1.Nodup)
    (henc : ∀ l ∈ o1, (encodeFn l).isSome) :
    (∃ m1 m2, buildRepGroups encodeFn o1 = some m1
      ∧ buildRepGroups encodeFn o2 = some m2
      ∧ ∀ e, List.Perm (groupVal e m1) (groupVal e m2))
    ∧ (∀ r1 r2 : List ((Nat × Nat) × List (Nat × Nat)),
        List.Perm r1 r2 → (r1.map Prod.fst).Nodup →
        ∀ k, lookupAssoc k (mergeByKey r1) = lookupAssoc k (mergeByKey r2)) := by
  constructor
  · have hnd2 := hperm.nodup_iff.mp hnd
    have henc2 : ∀ l ∈ o2, (encodeFn l).isSome := fun l hl =>
      henc l (hperm.mem_iff.mpr hl)
    obtain ⟨m1, h1, hv1⟩ := buildRepGroups_groups hnd henc
    obtain ⟨m2, h2, hv2⟩ := buildRepGroups_groups hnd2 henc2
    refine ⟨m1, m2, h1, h2, fun e => ?_⟩
    rw [hv1 e, hv2 e]
    exact hperm.filter _
  · intro r1 r2 hp hnd' k
    exact mergeByKey_perm_invariant hp hnd' k

/-- **C7 amended witness** on the 2-node instance with its two completion
orders. -/
theorem claim_C7_merge_order_determinism_witness :
    List.Perm [((0 : Nat), (1 : Nat)), (1, 0)] [(1, 0), (0, 1)]
    ∧ ([((0 : Nat), (1 : Nat)), (1, 0)] : List (Nat × Nat)).Nodup
    ∧ (∀ l ∈ ([(0, 1), (1, 0)] : List (Nat × Nat)), (encodeEx l).isSome)
    ∧ (∃ m1 m2, buildRepGroups encodeEx [(0, 1), (1, 0)] = some m1
      ∧ buildRepGroups encodeEx [(1, 0), (0, 1)] = some m2
      ∧ ∀ e, List.Perm (groupVal e m1) (groupVal e m2)) :=
  ⟨List.Perm.swap _ _ _, by decide, by decide,
    (claim_C7_merge_order_determinism (List.Perm.swap _ _ _) (by decide)
      (by decide)).1⟩

/-! ## `Optimization.computeOptimalSolution` result handling (C2) -/

/-- Gurobi termination statuses distinguished by `computeOptimalSolution`. -/
inductive GurobiStatus | optimal | timeLimit | other
deriving DecidableEq

/-- Module-level names of `optimization.py` (its imports and definitions);
`M` is not among them. -/
def optimizationModuleNames : List String :=
  ["time", "pickle", "nx", "gp", "os", "itertools", "helper", "HCONST",
   "DEFAULT_MAX_TIMEOUT", "Optimization"]

/-- Local names bound in `Optimization.saveIntermediateRouting` before the
`intermediatesolution = {v.varName: v.X for v in M.getVars()}` line runs:
the parameter `self`, the two aliases `Topo = self.Topo`, `F = self.F`, the
graph `g` and the loop variables.  `M = self.M` is missing — unlike
`saveOptimalRouting`'s sibling code, the method never binds `M`. -/
def saveIntermediateRoutingLocalNames : List String :=
  ["self", "Topo", "F", "g", "node", "i", "j", "repsd", "flowmap",
   "flowij", "flowji"]

/-- Python name resolution for a bare name inside a method body: local scope,
then module globals (builtins bind none of the names of interest here). -/
def pythonResolves (locals globals : List String) (n : String) : Bool :=
  decide (n ∈ locals) || decide (n ∈ globals)

/-- `Optimization.saveIntermediateRouting`: first pickles the expanded
partial routing as `IntermediateRouting`, then evaluates
`{v.varName: v.X for v in M.getVars()}`; if the name `M` does not resolve the
line raises `NameError` before `IntermediateSolution` is written.  Result:
(artifact names written, raised error if any). -/
def saveIntermediateRouting : List String × Option String :=
  if pythonResolves saveIntermediateRoutingLocalNames optimizationModuleNames "M"
  then (["IntermediateRouting", "IntermediateSolution"], none)
  else (["IntermediateRouting"], some "NameError: name M is not defined")

/-- `Optimization.computeOptimalSolution` result handling: on `OPTIMAL`
return `1 / ObjVal`; on `TIME_LIMIT` call `saveIntermediateRouting` and
return `None`; on any other status fail the assertion.  The `Except` layer
records an uncaught exception aborting the call; the list records artifacts
written. -/
def computeOptimalSolution (status : GurobiStatus) (objVal : Rat) :
    Except String (Option Rat) × List String :=
  match status with
  | .optimal => (Except.ok (some (1 / objVal)), [])
  | .timeLimit =>
    match saveIntermediateRouting with
    | (writes, none) => (Except.ok none, writes)
    | (writes, some e) => (Except.error e, writes)
  | .other => (Except.error "AssertionError: Main optimization fails", [])

/-- **C2 (code bug).**  On a solver time-limit the claim (and spec) say the
partial assignment is persisted as `IntermediateRouting`/`IntermediateSolution`
and `computeOptimalSolution` returns `None` without aborting.  In the code
`saveIntermediateRouting` never binds the local `M` (the `M = self.M` alias
present in every sibling method is missing), so the dict comprehension
raises `NameError` after `IntermediateRouting` is written and before
`IntermediateSolution` is: the run aborts and no `IntermediateSolution`
artifact exists.  (It is true that `OptimalRouting`/`ComputedThroughput` are
not overwritten.) -/
theorem claim_C2_time_limit_name_error :
    saveIntermediateRouting
      = (["IntermediateRouting"], some "NameError: name M is not defined")
    ∧ computeOptimalSolution GurobiStatus.timeLimit 2
      = (Except.error "NameError: name M is not defined", ["IntermediateRouting"])
    ∧ "IntermediateSolution" ∉ (computeOptimalSolution GurobiStatus.timeLimit 2).2
    ∧ "OptimalRouting" ∉ (computeOptimalSolution GurobiStatus.timeLimit 2).2
    ∧ "ComputedThroughput" ∉ (computeOptimalSolution GurobiStatus.timeLimit 2).2 := by
  refine ⟨by rfl, by rfl, by decide, by decide, by decide⟩

/-! ## `Optimization.setFlowConservationConstraint` (C6) -/

/-- One flow-conservation equality constraint `fc_{s}_{d}_{n}`: for
commodity `comm` at node `node`, the sum of the flow variables (identified
by their representative flow-link, with multiplicity) over incoming links
plus a unit injection at the source equals the sum over outgoing links plus
a unit absorption at the destination. -/
structure FlowConstraint where
  comm : Nat × Nat
  node : Nat
  inVars : List (Nat × Nat)
  inConst : Nat
  outVars : List (Nat × Nat)
  outConst : Nat
deriving DecidableEq

/-- The constraint the source builds for representative commodity `repsd`
at node `n`; `flowmap` models the loaded per-commodity `FlowLinkMap` dict
(`F[repsd][flowmap[h, n]]`). -/
def flowConstraintAt (neighbors : Nat → List Nat)
    (flowmap : (Nat × Nat) → (Nat × Nat) → (Nat × Nat))
    (repsd : Nat × Nat) (n : Nat) : FlowConstraint :=
  { comm := repsd, node := n
    inVars := (neighbors n).map (fun h => flowmap repsd (h, n))
    inConst := if n = repsd.1 then 1 else 0
    outVars := (neighbors n).map (fun h => flowmap repsd (n, h))
    outConst := if n = repsd.2 then 1 else 0 }

/-- `Optimization.setFlowConservationConstraint`: one constraint per
representative commodity per node of the graph. -/
def setFlowConservationConstraint (repComms : List (Nat × Nat))
    (allNodes : List Nat) (neighbors : Nat → List Nat)
    (flowmap : (Nat × Nat) → (Nat × Nat) → (Nat × Nat)) : List FlowConstraint :=
  repComms.flatMap (fun repsd =>
    allNodes.map (flowConstraintAt neighbors flowmap repsd))

/-- Value of a sum of flow variables under an assignment. -/
def evalVars (x : (Nat × Nat) → Rat) (vars : List (Nat × Nat)) : Rat :=
  (vars.map x).sum

/-- Satisfaction of a flow-conservation constraint (`flowin == flowout`). -/
def flowConstraintHolds (c : FlowConstraint) (x : (Nat × Nat) → Rat) : Prop :=
  evalVars x c.inVars + (c.inConst : Rat)
    = evalVars x c.outVars + (c.outConst : Rat)

theorem mem_setFlowConservationConstraint {repComms : List (Nat × Nat)}
    {allNodes : List Nat} {neighbors : Nat → List Nat}
    {flowmap : (Nat × Nat) → (Nat × Nat) → (Nat × Nat)} {c : FlowConstraint} :
    c ∈ setFlowConservationConstraint repComms allNodes neighbors flowmap
      ↔ ∃ repsd ∈ repComms, ∃ n ∈ allNodes,
          c = flowConstraintAt neighbors flowmap repsd n := by
  simp only [setFlowConservationConstraint, List.mem_flatMap, List.mem_map]
  constructor
  · rintro ⟨repsd, h1, n, h2, rfl⟩
    exact ⟨repsd, h1, n, h2, rfl⟩
  · rintro ⟨repsd, h1, n, h2, rfl⟩
    exact ⟨repsd, h1, n, h2, rfl⟩

theorem countP_inner_nodes {allNodes : List Nat} {neighbors : Nat → List Nat}
    {flowmap : (Nat × Nat) → (Nat × Nat) → (Nat × Nat)}
    {repsd : Nat × Nat} {n : Nat} (hndn : allNodes.Nodup) (hn : n ∈ allNodes) :
    ((allNodes.map (flowConstraintAt neighbors flowmap repsd)).countP
      (fun c => decide (c.comm = repsd ∧ c.node = n))) = 1 := by
  rw [List.countP_map]
  have hpt : ∀ n' ∈ allNodes,
      ((fun c => decide (c.comm = repsd ∧ c.node = n))
        ∘ flowConstraintAt neighbors flowmap repsd) n'
        = (fun x => decide (x = n)) n' := by
    intro n' _
    simp [flowConstraintAt, Function.comp]
  calc (allNodes.countP (((fun c => decide (c.comm = repsd ∧ c.node = n))
        ∘ flowConstraintAt neighbors flowmap repsd)))
      = allNodes.countP (fun x => decide (x = n)) := by
        refine List.countP_congr ?_
        intro n' hn'
        rw [hpt n' hn']
    _ = 1 := countP_eq_one_of_nodup hndn hn

/-- **C6.**  For every representative commodity `(s, d)` and every node `n`
of the graph the optimization model contains exactly one flow-conservation
equality constraint, and that constraint states: inflow plus a unit
injection when `n = s` equals outflow plus a unit absorption when `n = d`
(flow variables taken through the per-commodity flow-link map, with
multiplicity). -/
theorem claim_C6_flow_conservation
    {repComms : List (Nat × Nat)} {allNodes : List Nat}
    {neighbors : Nat → List Nat}
    {flowmap : (Nat × Nat) → (Nat × Nat) → (Nat × Nat)}
    (hndc : repComms.Nodup) (hndn : allNodes.Nodup) :
    ∀ repsd ∈ repComms, ∀ n ∈ allNodes,
      ((setFlowConservationConstraint repComms allNodes neighbors
          flowmap).countP (fun c => decide (c.comm = repsd ∧ c.node = n))) = 1
      ∧ ∀ c ∈ setFlowConservationConstraint repComms allNodes neighbors flowmap,
          c.comm = repsd → c.node = n →
          ∀ x : (Nat × Nat) → Rat,
            flowConstraintHolds c x ↔
              evalVars x ((neighbors n).map (fun h => flowmap repsd (h, n)))
                  + (if n = repsd.1 then (1 : Rat) else 0)
                = evalVars x ((neighbors n).map (fun h => flowmap repsd (n, h)))
                  + (if n = repsd.2 then (1 : Rat) else 0) := by
  intro repsd hc n hn
  constructor
  · induction repComms with
    | nil => cases hc
    | cons r rest ih =>
      obtain ⟨hr, hndc'⟩ := List.nodup_cons.mp hndc
      simp only [setFlowConservationConstraint, List.flatMap_cons,
        List.countP_append]
      rcases List.mem_cons.mp hc with heq | hc'
      · have hz : ((rest.flatMap (fun repsd' =>
            allNodes.map (flowConstraintAt neighbors flowmap repsd'))).countP
            (fun c => decide (c.comm = repsd ∧ c.node = n))) = 0 := by
          rw [List.countP_eq_zero]
          intro c hcm
          simp only [List.mem_flatMap, List.mem_map] at hcm
          obtain ⟨repsd', hr', n', _, rfl⟩ := hcm
          simp only [decide_eq_true_eq, flowConstraintAt, not_and]
          intro hcc
          exfalso
          apply hr
          rw [hcc, heq] at hr'
          exact hr'
        rw [hz, ← heq, countP_inner_nodes hndn hn]
      · have hz : ((allNodes.map (flowConstraintAt neighbors flowmap r)).countP
            (fun c => decide (c.comm = repsd ∧ c.node = n))) = 0 := by
          rw [List.countP_eq_zero]
          intro c hcm
          obtain ⟨n', _, rfl⟩ := List.mem_map.mp hcm
          simp only [decide_eq_true_eq, flowConstraintAt, not_and]
          intro hcc
          exfalso
          apply hr
          rw [← hcc] at hc'
          exact hc'
        simp only [setFlowConservationConstraint] at ih
        rw [hz, ih (List.nodup_cons.mp hndc).2 hc']
  · intro c hcm hcc hcn x
    obtain ⟨repsd', _, n', _, rfl⟩ := mem_setFlowConservationConstraint.mp hcm
    have h1 : repsd' = repsd := hcc
    have h2 : n' = n := hcn
    subst h1
    subst h2
    simp only [flowConstraintHolds, flowConstraintAt]
    constructor
    · intro h
      simpa using h
    · intro h
      simpa using h

/-- **C6 witness** on a 2-node graph with one representative commodity. -/
theorem claim_C6_flow_conservation_witness :
    ([((0 : Nat), (1 : Nat))] : List (Nat × Nat)).Nodup
    ∧ ([0, 1] : List Nat).Nodup
    ∧ ∀ repsd ∈ ([((0 : Nat), (1 : Nat))] : List (Nat × Nat)),
        ∀ n ∈ ([0, 1] : List Nat),
      ((setFlowConservationConstraint [(0, 1)] [0, 1]
          (fun n => if n = 0 then [1] else [0]) (fun _ l => l)).countP
          (fun c => decide (c.comm = repsd ∧ c.node = n))) = 1
      ∧ ∀ c ∈ setFlowConservationConstraint [(0, 1)] [0, 1]
            (fun n => if n = 0 then [1] else [0]) (fun _ l => l),
          c.comm = repsd → c.node = n →
          ∀ x : (Nat × Nat) → Rat,
            flowConstraintHolds c x ↔
              evalVars x (((fun n => if n = 0 then [1] else [0]) n).map
                  (fun h => (fun (_ : Nat × Nat) (l : Nat × Nat) => l) repsd (h, n)))
                  + (if n = repsd.1 then (1 : Rat) else 0)
                = evalVars x (((fun n => if n = 0 then [1] else [0]) n).map
                  (fun h => (fun (_ : Nat × Nat) (l : Nat × Nat) => l) repsd (n, h)))
                  + (if n = repsd.2 then (1 : Rat) else 0) :=
  ⟨by decide, by decide,
    claim_C6_flow_conservation (by decide) (by decide)⟩


/-! ## Solution grouping (`solution_grouping.py`) -/

/-- One entry of a per-node forwarding code
(`solution_grouping.py` line 135): the local outgoing link, the
representative flow link it maps to, and the routed flow value. -/
abbrev CodeEntry : Type := (Nat × Nat) × (Nat × Nat) × Rat

/-- Python tuple comparison on code entries (used by `code.sort()`,
`solution_grouping.py` line 136): lexicographic over
`((node, nh), (repflowlink), value)`. -/
def codeEntryLe (a b : CodeEntry) : Bool :=
  decide (a.1.1 < b.1.1) ||
  (decide (a.1.1 = b.1.1) &&
    (decide (a.1.2 < b.1.2) ||
     (decide (a.1.2 = b.1.2) &&
       (decide (a.2.1.1 < b.2.1.1) ||
        (decide (a.2.1.1 = b.2.1.1) &&
          (decide (a.2.1.2 < b.2.1.2) ||
           (decide (a.2.1.2 = b.2.1.2) && decide (a.2.2 ≤ b.2.2))))))))

/-- `SolutionGrouping.encodeFlows` (`solution_grouping.py` lines 126-137):
for each neighbour `nh` of `node`, map the local link `(node, nh)` through
commodity `sd`'s stored reverse automorphic map `rmap`
(`applyGenerator(link, rmap)`), look the image up in the representative
flow-link map of `repsd`, and, if the `Route` graph carries a flow value
for `repsd` on that representative flow link, record
`(link, repflowlink, value)`.  The collected code is sorted as Python sorts
tuples.  `none` models the exceptions the Python code can raise: a `None`
or out-of-range entry in the reverse map, a missing `flowlinkmap` key, or
`Route.get_edge_data` returning `None`. -/
def encodeFlows (neighbors : Nat → List Nat)
    (flowlinkmap : (Nat × Nat) → Option (Nat × Nat))
    (rmap : List (Option Nat))
    (route : (Nat × Nat) → Option (List ((Nat × Nat) × Rat)))
    (node : Nat) (repsd : Nat × Nat) : Option (List CodeEntry) :=
  Option.map (sortList codeEntryLe)
    ((neighbors node).foldlM (fun code nh =>
      match applyPairOpt (node, nh) rmap with
      | none => none
      | some alink =>
        match flowlinkmap alink with
        | none => none
        | some repflowlink =>
          match route repflowlink with
          | none => none
          | some d =>
            match lookupAssoc repsd d with
            | some fval => some (code ++ [((node, nh), repflowlink, fval)])
            | none => some code) [])

/-- One step of `groupSolutionAtNode`'s splitting dict
(`solution_grouping.py` lines 115-117):
`if code not in commsplit: commsplit[code] = set(); commsplit[code].add(autsd)`. -/
def addToCommSplit (code : List CodeEntry) (sd : Nat × Nat)
    (cm : List (List CodeEntry × List (Nat × Nat))) :
    List (List CodeEntry × List (Nat × Nat)) :=
  match lookupAssoc code cm with
  | some grp => setAssoc code (insertNew sd grp) cm
  | none => cm ++ [(code, [sd])]

/-- `SolutionGrouping.groupSolutionAtNode` (`solution_grouping.py` lines
108-123): for every representative commodity (paired here with its stored
orbit, `loadCommodityGroup`), split the orbit members by their forwarding
code at `node`.  `none` models an exception raised inside `encodeFlows`. -/
def groupSolutionAtNode
    (repOrbits : List ((Nat × Nat) × List (Nat × Nat)))
    (neighbors : Nat → List Nat)
    (flowlinkmapOf : (Nat × Nat) → (Nat × Nat) → Option (Nat × Nat))
    (rmapOf : (Nat × Nat) → List (Option Nat))
    (route : (Nat × Nat) → Option (List ((Nat × Nat) × Rat)))
    (node : Nat) :
    Option (List ((Nat × Nat) × List (List CodeEntry × List (Nat × Nat)))) :=
  repOrbits.foldlM (fun sg ro =>
    Option.map (fun cm => sg ++ [(ro.1, cm)])
      (ro.2.foldlM (fun cm sd =>
        Option.map (fun code => addToCommSplit code sd cm)
          (encodeFlows neighbors (flowlinkmapOf ro.1) (rmapOf sd) route node ro.1))
        [])) []

/-- The loop body of `countRouteInfoAtNode`
(`solution_grouping.py` lines 96-100): empty codes are skipped; otherwise
the group size is added to `cntall` and `cntcpt` is incremented. -/
def countStep (acc : Nat × Nat) (cg : List CodeEntry × List (Nat × Nat)) :
    Nat × Nat :=
  if cg.1.length = 0 then acc else (acc.1 + cg.2.length, acc.2 + 1)

/-- `SolutionGrouping.countRouteInfoAtNode` (`solution_grouping.py` lines
89-105): returns `(cntall, cntcpt)` over all split groups of all
representative commodities. -/
def countRouteInfoAtNode
    (sg : List ((Nat × Nat) × List (List CodeEntry × List (Nat × Nat)))) :
    Nat × Nat :=
  sg.foldl (fun acc rg => rg.2.foldl countStep acc) (0, 0)

theorem mem_of_mem_setAssoc {κ ν : Type} [DecidableEq κ] {k : κ} {v : ν}
    {m : List (κ × ν)} {e : κ × ν} (he : e ∈ setAssoc k v m) :
    e = (k, v) ∨ e ∈ m := by
  induction m with
  | nil =>
    simp only [setAssoc, List.mem_singleton] at he
    exact Or.inl he
  | cons p rest ih =>
    obtain ⟨k₁, v₁⟩ := p
    simp only [setAssoc] at he
    split at he
    · rcases List.mem_cons.mp he with h | h
      · exact Or.inl h
      · exact Or.inr (List.mem_cons_of_mem _ h)
    · rcases List.mem_cons.mp he with h | h
      · exact Or.inr (by rw [h]; exact List.mem_cons_self _ _)
      · rcases ih h with h₁ | h₁
        · exact Or.inl h₁
        · exact Or.inr (List.mem_cons_of_mem _ h₁)

theorem insertNew_ne_nil {β : Type} [DecidableEq β] (x : β) (xs : List β) :
    insertNew x xs ≠ [] := by
  unfold insertNew
  split
  · rename_i h
    intro hnil
    rw [hnil] at h
    simp at h
  · simp

theorem addToCommSplit_nonempty {code : List CodeEntry} {sd : Nat × Nat}
    {cm : List (List CodeEntry × List (Nat × Nat))}
    (h : ∀ cg ∈ cm, cg.2 ≠ []) :
    ∀ cg ∈ addToCommSplit code sd cm, cg.2 ≠ [] := by
  intro cg hcg
  unfold addToCommSplit at hcg
  split at hcg
  · rcases mem_of_mem_setAssoc hcg with h₁ | h₁
    · rw [h₁]
      exact insertNew_ne_nil _ _
    · exact h _ h₁
  · rcases List.mem_append.mp hcg with h₁ | h₁
    · exact h _ h₁
    · simp only [List.mem_singleton] at h₁
      rw [h₁]
      simp

theorem commSplit_fold_nonempty (encode : (Nat × Nat) → Option (List CodeEntry)) :
    ∀ (sds : List (Nat × Nat)) (cm cm₁ : List (List CodeEntry × List (Nat × Nat))),
      (∀ cg ∈ cm, cg.2 ≠ []) →
      List.foldlM (fun cm sd =>
          Option.map (fun code => addToCommSplit code sd cm) (encode sd)) cm sds
        = some cm₁ →
      ∀ cg ∈ cm₁, cg.2 ≠ [] := by
  intro sds
  induction sds with
  | nil =>
    intro cm cm₁ h hrun
    simp only [List.foldlM_nil] at hrun
    cases hrun
    exact h
  | cons sd rest ih =>
    intro cm cm₁ h hrun
    simp only [List.foldlM_cons] at hrun
    cases hel : encode sd with
    | none =>
      rw [hel] at hrun
      simp at hrun
    | some code =>
      rw [hel] at hrun
      simp only [Option.map_some', Option.bind_eq_bind, Option.some_bind] at hrun
      exact ih _ _ (addToCommSplit_nonempty h) hrun

theorem groupFold_nonempty (neighbors : Nat → List Nat)
    (flowlinkmapOf : (Nat × Nat) → (Nat × Nat) → Option (Nat × Nat))
    (rmapOf : (Nat × Nat) → List (Option Nat))
    (route : (Nat × Nat) → Option (List ((Nat × Nat) × Rat)))
    (node : Nat) :
    ∀ (ros : List ((Nat × Nat) × List (Nat × Nat)))
      (sg₀ sg : List ((Nat × Nat) × List (List CodeEntry × List (Nat × Nat)))),
      (∀ rg ∈ sg₀, ∀ cg ∈ rg.2, cg.2 ≠ []) →
      List.foldlM (fun sg ro =>
          Option.map (fun cm => sg ++ [(ro.1, cm)])
            (ro.2.foldlM (fun cm sd =>
              Option.map (fun code => addToCommSplit code sd cm)
                (encodeFlows neighbors (flowlinkmapOf ro.1) (rmapOf sd) route node ro.1))
              [])) sg₀ ros
        = some sg →
      ∀ rg ∈ sg, ∀ cg ∈ rg.2, cg.2 ≠ [] := by
  intro ros
  induction ros with
  | nil =>
    intro sg₀ sg h hrun
    simp only [List.foldlM_nil] at hrun
    cases hrun
    exact h
  | cons ro rest ih =>
    intro sg₀ sg h hrun
    simp only [List.foldlM_cons] at hrun
    cases hin : ro.2.foldlM (fun cm sd =>
        Option.map (fun code => addToCommSplit code sd cm)
          (encodeFlows neighbors (flowlinkmapOf ro.1) (rmapOf sd) route node ro.1)) [] with
    | none =>
      rw [hin] at hrun
      simp at hrun
    | some cm =>
      rw [hin] at hrun
      simp only [Option.map_some', Option.bind_eq_bind, Option.some_bind] at hrun
      refine ih _ _ ?_ hrun
      intro rg hrg cg hcg
      rcases List.mem_append.mp hrg with h₁ | h₁
      · exact h rg h₁ cg hcg
      · simp only [List.mem_singleton] at h₁
        rw [h₁] at hcg
        exact commSplit_fold_nonempty _ ro.2 [] cm (by intro cg₀ hc; simp at hc) hin cg hcg

theorem groupSolutionAtNode_nonempty
    {repOrbits : List ((Nat × Nat) × List (Nat × Nat))}
    {neighbors : Nat → List Nat}
    {flowlinkmapOf : (Nat × Nat) → (Nat × Nat) → Option (Nat × Nat)}
    {rmapOf : (Nat × Nat) → List (Option Nat)}
    {route : (Nat × Nat) → Option (List ((Nat × Nat) × Rat))}
    {node : Nat}
    {sg : List ((Nat × Nat) × List (List CodeEntry × List (Nat × Nat)))}
    (hrun : groupSolutionAtNode repOrbits neighbors flowlinkmapOf rmapOf route node
      = some sg) :
    ∀ rg ∈ sg, ∀ cg ∈ rg.2, cg.2 ≠ [] := by
  unfold groupSolutionAtNode at hrun
  exact groupFold_nonempty neighbors flowlinkmapOf rmapOf route node repOrbits [] sg
    (by intro rg h; simp at h) hrun

theorem countStep_fold_le :
    ∀ (groups : List (List CodeEntry × List (Nat × Nat))) (acc : Nat × Nat),
      (∀ cg ∈ groups, cg.2 ≠ []) → acc.2 ≤ acc.1 →
      (groups.foldl countStep acc).2 ≤ (groups.foldl countStep acc).1 := by
  intro groups
  induction groups with
  | nil =>
    intro acc _ h
    simpa using h
  | cons cg rest ih =>
    intro acc hne h
    simp only [List.foldl_cons]
    refine ih _ (fun x hx => hne x (List.mem_cons_of_mem _ hx)) ?_
    unfold countStep
    split
    · exact h
    · have h₂ : 1 ≤ cg.2.length := by
        have hcg := hne cg (List.mem_cons_self _ _)
        cases hl : cg.2 with
        | nil => exact absurd hl hcg
        | cons a l => simp [hl]
      simp only
      omega

theorem countStep_fold_mono :
    ∀ (groups : List (List CodeEntry × List (Nat × Nat))) (acc : Nat × Nat),
      acc.2 ≤ (groups.foldl countStep acc).2 := by
  intro groups
  induction groups with
  | nil =>
    intro acc
    simp
  | cons cg rest ih =>
    intro acc
    simp only [List.foldl_cons]
    refine le_trans ?_ (ih (countStep acc cg))
    unfold countStep
    split
    · exact le_refl _
    · exact Nat.le_succ _

theorem countStep_fold_pos :
    ∀ (groups : List (List CodeEntry × List (Nat × Nat))) (acc : Nat × Nat),
      (∃ cg ∈ groups, cg.1 ≠ []) →
      acc.2 < (groups.foldl countStep acc).2 := by
  intro groups
  induction groups with
  | nil =>
    intro acc h
    obtain ⟨cg, hm, _⟩ := h
    simp at hm
  | cons cg₀ rest ih =>
    intro acc h
    obtain ⟨cg, hm, hc⟩ := h
    simp only [List.foldl_cons]
    rcases List.mem_cons.mp hm with rfl | hm₁
    · refine lt_of_lt_of_le ?_ (countStep_fold_mono rest _)
      unfold countStep
      rw [if_neg (by simpa [List.length_eq_zero] using hc)]
      exact Nat.lt_succ_self _
    · refine lt_of_le_of_lt ?_ (ih _ ⟨cg, hm₁, hc⟩)
      unfold countStep
      split
      · exact le_refl _
      · exact Nat.le_succ _

theorem countRoute_fold_le :
    ∀ (sg : List ((Nat × Nat) × List (List CodeEntry × List (Nat × Nat))))
      (acc : Nat × Nat),
      (∀ rg ∈ sg, ∀ cg ∈ rg.2, cg.2 ≠ []) → acc.2 ≤ acc.1 →
      (sg.foldl (fun acc rg => rg.2.foldl countStep acc) acc).2
        ≤ (sg.foldl (fun acc rg => rg.2.foldl countStep acc) acc).1 := by
  intro sg
  induction sg with
  | nil =>
    intro acc _ h
    simpa using h
  | cons rg rest ih =>
    intro acc hne h
    simp only [List.foldl_cons]
    exact ih _ (fun x hx => hne x (List.mem_cons_of_mem _ hx))
      (countStep_fold_le rg.2 acc (hne rg (List.mem_cons_self _ _)) h)

theorem countRoute_fold_mono :
    ∀ (sg : List ((Nat × Nat) × List (List CodeEntry × List (Nat × Nat))))
      (acc : Nat × Nat),
      acc.2 ≤ (sg.foldl (fun acc rg => rg.2.foldl countStep acc) acc).2 := by
  intro sg
  induction sg with
  | nil =>
    intro acc
    simp
  | cons rg rest ih =>
    intro acc
    simp only [List.foldl_cons]
    exact le_trans (countStep_fold_mono rg.2 acc) (ih _)

theorem countRoute_fold_pos :
    ∀ (sg : List ((Nat × Nat) × List (List CodeEntry × List (Nat × Nat))))
      (acc : Nat × Nat),
      (∃ rg ∈ sg, ∃ cg ∈ rg.2, cg.1 ≠ []) →
      acc.2 < (sg.foldl (fun acc rg => rg.2.foldl countStep acc) acc).2 := by
  intro sg
  induction sg with
  | nil =>
    intro acc h
    obtain ⟨rg, hm, _⟩ := h
    simp at hm
  | cons rg₀ rest ih =>
    intro acc h
    obtain ⟨rg, hm, hcg⟩ := h
    simp only [List.foldl_cons]
    rcases List.mem_cons.mp hm with rfl | hm₁
    · exact lt_of_lt_of_le (countStep_fold_pos rg.2 acc hcg) (countRoute_fold_mono rest _)
    · exact lt_of_le_of_lt (countStep_fold_mono rg₀.2 acc) (ih _ ⟨rg, hm₁, hcg⟩)

/-- **C8 (amended).**  The claim states `0 < compact ≤ all` and
`compact / all ∈ (0, 1]` for every processed node.  What the code
guarantees for every completed `groupSolutionAtNode` run is
`compact ≤ all` (every counted split group is nonempty); the strict
positivity — and with it a well-defined ratio — holds exactly when some
split group at the node has a nonempty forwarding code.  At a node where
every code is empty, `countRouteInfoAtNode` skips all groups and returns
`(0, 0)`, and `getStatCountInfo` divides by zero. -/
theorem claim_C8_compaction_bounds
    {repOrbits : List ((Nat × Nat) × List (Nat × Nat))}
    {neighbors : Nat → List Nat}
    {flowlinkmapOf : (Nat × Nat) → (Nat × Nat) → Option (Nat × Nat)}
    {rmapOf : (Nat × Nat) → List (Option Nat)}
    {route : (Nat × Nat) → Option (List ((Nat × Nat) × Rat))}
    {node : Nat}
    {sg : List ((Nat × Nat) × List (List CodeEntry × List (Nat × Nat)))}
    (hrun : groupSolutionAtNode repOrbits neighbors flowlinkmapOf rmapOf route node
      = some sg) :
    (countRouteInfoAtNode sg).2 ≤ (countRouteInfoAtNode sg).1
    ∧ ((∃ rg ∈ sg, ∃ cg ∈ rg.2, cg.1 ≠ []) →
        0 < (countRouteInfoAtNode sg).2
        ∧ 0 < (countRouteInfoAtNode sg).1
        ∧ 0 < ((countRouteInfoAtNode sg).2 : Rat) / ((countRouteInfoAtNode sg).1 : Rat)
        ∧ ((countRouteInfoAtNode sg).2 : Rat) / ((countRouteInfoAtNode sg).1 : Rat) ≤ 1) := by
  have hne := groupSolutionAtNode_nonempty hrun
  have hle : (countRouteInfoAtNode sg).2 ≤ (countRouteInfoAtNode sg).1 :=
    countRoute_fold_le sg (0, 0) hne (le_refl 0)
  refine ⟨hle, fun hex => ?_⟩
  have hc : 0 < (countRouteInfoAtNode sg).2 := countRoute_fold_pos sg (0, 0) hex
  have ha : 0 < (countRouteInfoAtNode sg).1 := lt_of_lt_of_le hc hle
  have haq : (0 : Rat) < ((countRouteInfoAtNode sg).1 : Rat) := by exact_mod_cast ha
  refine ⟨hc, ha, ?_, ?_⟩
  · exact div_pos (by exact_mod_cast hc) haq
  · rw [div_le_one haq]
    exact_mod_cast hle

/-- Neighbour lists of the pendant topology: a path `0 - 1 - 2` with the
extra pendant node `3` attached to node `1`. -/
def neighborsPendant : Nat → List Nat := fun n =>
  if n = 0 then [1] else if n = 1 then [0, 2, 3]
  else if n = 2 then [1] else if n = 3 then [1] else []

/-- The optimal routing on the pendant topology for the two commodities
`(0, 2)` and `(2, 0)` between the only two hosts `0` and `2`: all flow
follows the path through node `1`; the links touching the pendant node `3`
carry no flow. -/
def routePendant : (Nat × Nat) → Option (List ((Nat × Nat) × Rat)) := fun l =>
  if l = (0, 1) then some [((0, 2), 1)]
  else if l = (1, 2) then some [((0, 2), 1)]
  else if l = (2, 1) then some [((2, 0), 1)]
  else if l = (1, 0) then some [((2, 0), 1)]
  else if l = (1, 3) then some []
  else if l = (3, 1) then some []
  else none

/-- The flow-link maps of the pendant topology: with no nontrivial
automorphisms every directed link is its own representative. -/
def flowmapPendant : (Nat × Nat) → (Nat × Nat) → Option (Nat × Nat) := fun _ l =>
  if l ∈ [((0 : Nat), (1 : Nat)), (1, 0), (1, 2), (2, 1), (1, 3), (3, 1)]
  then some l else none

/-- The stored reverse automorphic maps of the pendant topology: with
singleton commodity orbits every stored map is the identity on the four
nodes. -/
def rmapPendant : (Nat × Nat) → List (Option Nat) := fun _ =>
  (List.range 4).map some

/-- The representative commodities of the pendant topology with their
(singleton) orbits. -/
def repOrbitsPendant : List ((Nat × Nat) × List (Nat × Nat)) :=
  [((0, 2), [(0, 2)]), ((2, 0), [(2, 0)])]

/-- **C8 counterexample.**  At the pendant node `3` of the pendant
topology, `groupSolutionAtNode` completes and every forwarding code is
empty (no flow for any representative commodity traverses the links
`(3, 1)` or `(1, 3)`), so `countRouteInfoAtNode` skips every group and
reports `all = 0`, `compact = 0`: the claimed `0 < compact` fails, and
`getStatCountInfo`'s per-node ratio `compact / all` is a division by
zero. -/
theorem claim_C8_counterexample :
    groupSolutionAtNode repOrbitsPendant neighborsPendant flowmapPendant
        rmapPendant routePendant 3
      = some [((0, 2), [([], [(0, 2)])]), ((2, 0), [([], [(2, 0)])])]
    ∧ countRouteInfoAtNode
        [((0, 2), [([], [(0, 2)])]), ((2, 0), [([], [(2, 0)])])] = (0, 0)
    ∧ ¬ 0 < (countRouteInfoAtNode
        [((0, 2), [([], [(0, 2)])]), ((2, 0), [([], [(2, 0)])])]).2 :=
  ⟨rfl, rfl, by decide⟩

/-- The split groups computed at the interior node `1` of the pendant
topology. -/
def sgPendant1 : List ((Nat × Nat) × List (List CodeEntry × List (Nat × Nat))) :=
  [((0, 2), [([((1, 2), (1, 2), 1)], [(0, 2)])]),
   ((2, 0), [([((1, 0), (1, 0), 1)], [(2, 0)])])]

/-- **C8 witness**: at node `1` of the pendant topology the run completes
with nonempty codes, and the bounds of the amended theorem hold there. -/
theorem claim_C8_compaction_bounds_witness :
    (countRouteInfoAtNode sgPendant1).2 ≤ (countRouteInfoAtNode sgPendant1).1
    ∧ ((∃ rg ∈ sgPendant1, ∃ cg ∈ rg.2, cg.1 ≠ []) →
        0 < (countRouteInfoAtNode sgPendant1).2
        ∧ 0 < (countRouteInfoAtNode sgPendant1).1
        ∧ 0 < ((countRouteInfoAtNode sgPendant1).2 : Rat)
            / ((countRouteInfoAtNode sgPendant1).1 : Rat)
        ∧ ((countRouteInfoAtNode sgPendant1).2 : Rat)
            / ((countRouteInfoAtNode sgPendant1).1 : Rat) ≤ 1) :=
  @claim_C8_compaction_bounds repOrbitsPendant neighborsPendant flowmapPendant
    rmapPendant routePendant 1 sgPendant1 rfl

end DCN
